import Mathlib

/-!
Verification of the autopitch-ai backend against its design notes.

The repository contains several near-duplicate revisions of one Express
service.  Each definition below is a shallow embedding of a specific
function of a specific revision:

* `src/index.js`            — the `extractJson` / `rateLimit` / `/generate`
                              revision (no billing entitlement);
* `src/unnamed/part_000`    — the `freeQuota` / `signToken` / `verifyToken`
                              revision;
* `src/unnamed/part_001`    — the zod `Env.parse` fail-fast revision;
* `src/unnamed/part_003`    — the plan-dependent variant-cap revision;
* `src/unnamed/part_004`    — the cookie-entitlement / turnstile / metrics
                              revision.

JavaScript strings are modelled as `List Char`; machine integers and
timestamps as `Int`/`Nat`.  `JSON.parse` / `JSON.stringify` (platform
builtins) are modelled by an executable parser/printer pair below, with two
deliberate simplifications, each noted where it occurs: JSON numbers are
modelled as integers, and UTF-8 byte coding is modelled for ASCII text.
-/

/-! ### JSON values

Model of the JavaScript values produced by `JSON.parse`.  Numbers are
modelled as integers (`Int`): every numeric field the service reads or
writes (`exp`, counters) is an integer, and no claim depends on fractional
JSON numbers. -/

/-- A JSON value.  Object fields are kept in source order; duplicate keys are
resolved last-wins at lookup time, as JavaScript's `JSON.parse` does. -/
inductive Json where
  | null
  | bool (b : Bool)
  | num (n : Int)
  | str (s : List Char)
  | arr (elements : List Json)
  | obj (fields : List (List Char × Json))

mutual

/-- Decidable equality on JSON values (the nested `List` fields rule out the
derived instance). -/
def decEqJson : (a b : Json) → Decidable (a = b)
  | Json.null, Json.null => isTrue rfl
  | Json.bool a, Json.bool b =>
    match decEq a b with
    | isTrue h => isTrue (by rw [h])
    | isFalse h => isFalse (fun e => h (Json.bool.inj e))
  | Json.num a, Json.num b =>
    match decEq a b with
    | isTrue h => isTrue (by rw [h])
    | isFalse h => isFalse (fun e => h (Json.num.inj e))
  | Json.str a, Json.str b =>
    match decEq a b with
    | isTrue h => isTrue (by rw [h])
    | isFalse h => isFalse (fun e => h (Json.str.inj e))
  | Json.arr a, Json.arr b =>
    match decEqJsonList a b with
    | isTrue h => isTrue (by rw [h])
    | isFalse h => isFalse (fun e => h (Json.arr.inj e))
  | Json.obj a, Json.obj b =>
    match decEqJsonFields a b with
    | isTrue h => isTrue (by rw [h])
    | isFalse h => isFalse (fun e => h (Json.obj.inj e))
  | Json.null, Json.bool _ => isFalse (fun h => nomatch h)
  | Json.null, Json.num _ => isFalse (fun h => nomatch h)
  | Json.null, Json.str _ => isFalse (fun h => nomatch h)
  | Json.null, Json.arr _ => isFalse (fun h => nomatch h)
  | Json.null, Json.obj _ => isFalse (fun h => nomatch h)
  | Json.bool _, Json.null => isFalse (fun h => nomatch h)
  | Json.bool _, Json.num _ => isFalse (fun h => nomatch h)
  | Json.bool _, Json.str _ => isFalse (fun h => nomatch h)
  | Json.bool _, Json.arr _ => isFalse (fun h => nomatch h)
  | Json.bool _, Json.obj _ => isFalse (fun h => nomatch h)
  | Json.num _, Json.null => isFalse (fun h => nomatch h)
  | Json.num _, Json.bool _ => isFalse (fun h => nomatch h)
  | Json.num _, Json.str _ => isFalse (fun h => nomatch h)
  | Json.num _, Json.arr _ => isFalse (fun h => nomatch h)
  | Json.num _, Json.obj _ => isFalse (fun h => nomatch h)
  | Json.str _, Json.null => isFalse (fun h => nomatch h)
  | Json.str _, Json.bool _ => isFalse (fun h => nomatch h)
  | Json.str _, Json.num _ => isFalse (fun h => nomatch h)
  | Json.str _, Json.arr _ => isFalse (fun h => nomatch h)
  | Json.str _, Json.obj _ => isFalse (fun h => nomatch h)
  | Json.arr _, Json.null => isFalse (fun h => nomatch h)
  | Json.arr _, Json.bool _ => isFalse (fun h => nomatch h)
  | Json.arr _, Json.num _ => isFalse (fun h => nomatch h)
  | Json.arr _, Json.str _ => isFalse (fun h => nomatch h)
  | Json.arr _, Json.obj _ => isFalse (fun h => nomatch h)
  | Json.obj _, Json.null => isFalse (fun h => nomatch h)
  | Json.obj _, Json.bool _ => isFalse (fun h => nomatch h)
  | Json.obj _, Json.num _ => isFalse (fun h => nomatch h)
  | Json.obj _, Json.str _ => isFalse (fun h => nomatch h)
  | Json.obj _, Json.arr _ => isFalse (fun h => nomatch h)

def decEqJsonList : (a b : List Json) → Decidable (a = b)
  | [], [] => isTrue rfl
  | [], _ :: _ => isFalse (fun h => nomatch h)
  | _ :: _, [] => isFalse (fun h => nomatch h)
  | a :: as, b :: bs =>
    match decEqJson a b with
    | isFalse h => isFalse (fun e => h (List.cons.inj e).1)
    | isTrue h1 =>
      match decEqJsonList as bs with
      | isTrue h2 => isTrue (by rw [h1, h2])
      | isFalse h => isFalse (fun e => h (List.cons.inj e).2)

def decEqJsonFields : (a b : List (List Char × Json)) → Decidable (a = b)
  | [], [] => isTrue rfl
  | [], _ :: _ => isFalse (fun h => nomatch h)
  | _ :: _, [] => isFalse (fun h => nomatch h)
  | (k1, v1) :: as, (k2, v2) :: bs =>
    match decEq k1 k2 with
    | isFalse h => isFalse (fun e => h (Prod.mk.inj (List.cons.inj e).1).1)
    | isTrue hk =>
      match decEqJson v1 v2 with
      | isFalse h => isFalse (fun e => h (Prod.mk.inj (List.cons.inj e).1).2)
      | isTrue hv =>
        match decEqJsonFields as bs with
        | isTrue ht => isTrue (by rw [hk, hv, ht])
        | isFalse h => isFalse (fun e => h (List.cons.inj e).2)

end

instance : DecidableEq Json := decEqJson

/-- JavaScript truthiness of a JSON value: `null`, `false`, `0` and the empty
string are falsy; arrays and objects are always truthy. -/
def jsTruthy : Json → Bool
  | Json.null => false
  | Json.bool b => b
  | Json.num n => decide (n ≠ 0)
  | Json.str s => decide (s ≠ [])
  | Json.arr _ => true
  | Json.obj _ => true

/-- Last-wins association lookup, matching the net effect of JavaScript
object construction from a (possibly duplicated) field list. -/
def lookupLast (k : List Char) : List (List Char × Json) → Option Json
  | [] => none
  | kv :: rest =>
    match lookupLast k rest with
    | some v => some v
    | none => if kv.1 = k then some kv.2 else none

/-- Property access `j[k]` on a JSON value: defined on objects, `none`
(JavaScript `undefined`) otherwise. -/
def jsonGet (j : Json) (k : List Char) : Option Json :=
  match j with
  | Json.obj fields => lookupLast k fields
  | _ => none

/-! ### A model of `JSON.parse`

Executable recursive-descent parser over `List Char`, total by a fuel
argument.  Faithful to `JSON.parse` on the material the service handles;
known simplifications: numbers are integers (a fractional or exponent part
makes the whole parse fail rather than produce a float), and raw control
characters inside string literals are accepted rather than rejected. -/

/-- JSON insignificant whitespace (RFC 8259): space, tab, newline, return. -/
def jsonWs (c : Char) : Bool :=
  c = ' ' || c = '\t' || c = '\n' || c = '\r'

def skipJsonWs : List Char → List Char
  | [] => []
  | c :: rest => if jsonWs c then skipJsonWs rest else c :: rest

def isDigitCh (c : Char) : Bool := '0' ≤ c && c ≤ '9'

def digitVal (c : Char) : Nat := c.toNat - '0'.toNat

/-- Maximal digit run, accumulating its decimal value. -/
def digitRun (acc : Nat) : List Char → Nat × List Char
  | [] => (acc, [])
  | c :: rest =>
    if isDigitCh c then digitRun (acc * 10 + digitVal c) rest
    else (acc, c :: rest)

/-- Does the input start with a digit?  (Used for the leading-zero rule.) -/
def digitStart : List Char → Bool
  | [] => false
  | c :: _ => isDigitCh c

/-- Nonnegative JSON integer: `0`, or a run not starting with `0`. -/
def parseNatNum : List Char → Option (Nat × List Char)
  | [] => none
  | c :: rest =>
    if c = '0' then if digitStart rest then none else some (0, rest)
    else if isDigitCh c then some (digitRun (digitVal c) rest)
    else none

/-- JSON integer with optional minus sign. -/
def parseIntNum : List Char → Option (Int × List Char)
  | [] => none
  | c :: rest =>
    if c = '-' then
      match parseNatNum rest with
      | some (n, r) => some (-(n : Int), r)
      | none => none
    else
      match parseNatNum (c :: rest) with
      | some (n, r) => some ((n : Int), r)
      | none => none

def hexDigitVal (c : Char) : Option Nat :=
  let n := c.toNat
  if 48 ≤ n && n ≤ 57 then some (n - 48)
  else if 97 ≤ n && n ≤ 102 then some (n - 87)
  else if 65 ≤ n && n ≤ 70 then some (n - 55)
  else none

/-- Single-character escapes recognized inside JSON string literals. -/
def escCode (c : Char) : Option Char :=
  if c = '"' ∨ c = '\\' ∨ c = '/' then some c
  else if c = 'n' then some '\n'
  else if c = 't' then some '\t'
  else if c = 'r' then some '\r'
  else if c = 'b' then some (Char.ofNat 8)
  else if c = 'f' then some (Char.ofNat 12)
  else none

/-- Body of a string literal after the opening quote, up to the closing
quote. -/
def parseStrBody : List Char → Option (List Char × List Char)
  | [] => none
  | c :: rest =>
    if c = '"' then some ([], rest)
    else if c = '\\' then
      match rest with
      | 'u' :: h1 :: h2 :: h3 :: h4 :: rest2 =>
        match hexDigitVal h1, hexDigitVal h2, hexDigitVal h3, hexDigitVal h4 with
        | some a, some b, some cc, some d =>
          match parseStrBody rest2 with
          | some (s, r) =>
            some (Char.ofNat (((a * 16 + b) * 16 + cc) * 16 + d) :: s, r)
          | none => none
        | _, _, _, _ => none
      | e :: rest2 =>
        match escCode e with
        | some ch =>
          match parseStrBody rest2 with
          | some (s, r) => some (ch :: s, r)
          | none => none
        | none => none
      | [] => none
    else
      match parseStrBody rest with
      | some (s, r) => some (c :: s, r)
      | none => none

mutual

/-- One JSON value (after skipping leading whitespace); returns the value and
the unconsumed remainder. -/
def parseVal : Nat → List Char → Option (Json × List Char)
  | 0, _ => none
  | Nat.succ fuel, input =>
    match skipJsonWs input with
    | [] => none
    | c :: r =>
      if c = 'n' then
        match r with
        | 'u' :: 'l' :: 'l' :: r2 => some (Json.null, r2)
        | _ => none
      else if c = 't' then
        match r with
        | 'r' :: 'u' :: 'e' :: r2 => some (Json.bool true, r2)
        | _ => none
      else if c = 'f' then
        match r with
        | 'a' :: 'l' :: 's' :: 'e' :: r2 => some (Json.bool false, r2)
        | _ => none
      else if c = '"' then
        match parseStrBody r with
        | some (s, r2) => some (Json.str s, r2)
        | none => none
      else if c = '[' then
        match skipJsonWs r with
        | [] => none
        | c2 :: r2 =>
          if c2 = ']' then some (Json.arr [], r2)
          else
            match parseItems fuel (c2 :: r2) with
            | some (es, r3) => some (Json.arr es, r3)
            | none => none
      else if c = '{' then
        match skipJsonWs r with
        | [] => none
        | c2 :: r2 =>
          if c2 = '}' then some (Json.obj [], r2)
          else
            match parsePairs fuel (c2 :: r2) with
            | some (fs, r3) => some (Json.obj fs, r3)
            | none => none
      else
        match parseIntNum (c :: r) with
        | some (n, r2) => some (Json.num n, r2)
        | none => none

/-- One-or-more comma-separated array elements, up to the closing bracket. -/
def parseItems : Nat → List Char → Option (List Json × List Char)
  | 0, _ => none
  | Nat.succ fuel, input =>
    match parseVal fuel input with
    | none => none
    | some (v, r) =>
      match skipJsonWs r with
      | ',' :: r2 =>
        match parseItems fuel r2 with
        | some (vs, r3) => some (v :: vs, r3)
        | none => none
      | ']' :: r2 => some ([v], r2)
      | _ => none

/-- One-or-more comma-separated object members, up to the closing brace. -/
def parsePairs : Nat → List Char → Option (List (List Char × Json) × List Char)
  | 0, _ => none
  | Nat.succ fuel, input =>
    match skipJsonWs input with
    | '"' :: r =>
      match parseStrBody r with
      | none => none
      | some (key, r1) =>
        match skipJsonWs r1 with
        | ':' :: r2 =>
          match parseVal fuel r2 with
          | none => none
          | some (v, r3) =>
            match skipJsonWs r3 with
            | ',' :: r4 =>
              match parsePairs fuel r4 with
              | some (fs, r5) => some ((key, v) :: fs, r5)
              | none => none
            | '}' :: r4 => some ([(key, v)], r4)
            | _ => none
        | _ => none
    | _ => none

end

/-- Model of `JSON.parse(text)`: a complete document with nothing but
whitespace after the value; `none` models a thrown `SyntaxError`. -/
def jsonParse (text : List Char) : Option Json :=
  match parseVal (2 * text.length + 2) text with
  | some (v, r) => if skipJsonWs r = [] then some v else none
  | none => none

/-! ### A model of `JSON.stringify` (for the cookie payloads of part_000) -/

def hexDigitCh (n : Nat) : Char :=
  if n < 10 then Char.ofNat ('0'.toNat + n) else Char.ofNat ('a'.toNat + n - 10)

/-- One character of string content, escaped as `JSON.stringify` does. -/
def escapeCh (c : Char) : List Char :=
  if c = '"' then ['\\', '"']
  else if c = '\\' then ['\\', '\\']
  else if c = '\n' then ['\\', 'n']
  else if c = '\r' then ['\\', 'r']
  else if c = '\t' then ['\\', 't']
  else if c.toNat < 32 then
    ['\\', 'u', hexDigitCh (c.toNat / 4096 % 16), hexDigitCh (c.toNat / 256 % 16),
      hexDigitCh (c.toNat / 16 % 16), hexDigitCh (c.toNat % 16)]
  else [c]

/-- A quoted string literal. -/
def printStr (s : List Char) : List Char :=
  '"' :: (s.flatMap escapeCh ++ ['"'])

/-- Decimal digit characters of `n`, most significant first, onto `acc`;
structural on a fuel bound so that the definition evaluates by reduction. -/
def natCharsF : Nat → Nat → List Char → List Char
  | 0, _, acc => acc
  | Nat.succ fuel, n, acc =>
    if n < 10 then Char.ofNat ('0'.toNat + n) :: acc
    else natCharsF fuel (n / 10) (Char.ofNat ('0'.toNat + n % 10) :: acc)

/-- Decimal digit characters of `n`, most significant first, onto `acc`. -/
def natChars (n : Nat) (acc : List Char) : List Char := natCharsF (n + 1) n acc

/-- Decimal form of an integer. -/
def intChars (i : Int) : List Char :=
  if i < 0 then '-' :: natChars i.natAbs [] else natChars i.natAbs []

mutual

/-- Model of `JSON.stringify` (no spacing argument, as in the source). -/
def printJson : Json → List Char
  | Json.null => ['n', 'u', 'l', 'l']
  | Json.bool true => ['t', 'r', 'u', 'e']
  | Json.bool false => ['f', 'a', 'l', 's', 'e']
  | Json.num n => intChars n
  | Json.str s => printStr s
  | Json.arr es => '[' :: (printItems es ++ [']'])
  | Json.obj fs => '{' :: (printPairs fs ++ ['}'])

def printItems : List Json → List Char
  | [] => []
  | [e] => printJson e
  | e :: rest => printJson e ++ ',' :: printItems rest

def printPairs : List (List Char × Json) → List Char
  | [] => []
  | [kv] => printStr kv.1 ++ ':' :: printJson kv.2
  | kv :: rest => (printStr kv.1 ++ ':' :: printJson kv.2) ++ ',' :: printPairs rest

end

/-! ### `extractJson` (src/index.js, lines 40-51)

The source scans the LLM text with the regular expression
`/(three backticks)(?:json)?\s*([\s\S]*?)\s*(three backticks)/i` and takes
the first capture as the candidate, falling back to the whole text.  The
functions below implement that regex's observable behaviour directly:
leftmost match, optional case-insensitive `json` tag, greedy whitespace
after the tag, lazy body, greedy whitespace before the closing fence.
`\s` is modelled by its ASCII part (the texts at issue are ASCII). -/

/-- The backtick character (code point 96). -/
def isTick (c : Char) : Bool := c.toNat = 96

/-- ASCII part of the regex class `\s`. -/
def regexWs (c : Char) : Bool :=
  c = ' ' || c = '\t' || c = '\n' || c = '\r' || c.toNat = 11 || c.toNat = 12

/-- Split at the first triple-backtick: `some (before, after)` when the text
contains one, `none` otherwise. -/
def splitTicks : List Char → Option (List Char × List Char)
  | c1 :: c2 :: c3 :: rest =>
    if isTick c1 && isTick c2 && isTick c3 then some ([], rest)
    else
      match splitTicks (c2 :: c3 :: rest) with
      | some (pre, post) => some (c1 :: pre, post)
      | none => none
  | _ => none

/-- Consume an optional case-insensitive `json` tag (the regex's greedy
`(?:json)?`). -/
def stripJsonTag (l : List Char) : List Char :=
  match l with
  | c1 :: c2 :: c3 :: c4 :: rest =>
    if c1.toLower = 'j' && c2.toLower = 's' && c3.toLower = 'o' && c4.toLower = 'n' then rest
    else l
  | _ => l

/-- First capture group of the fence regex, when the text matches. -/
def fenceInner (text : List Char) : Option (List Char) :=
  match splitTicks text with
  | none => none
  | some (_, afterOpen) =>
    let body := (stripJsonTag afterOpen).dropWhile regexWs
    match splitTicks body with
    | none => none
    | some (inner, _) => some ((inner.reverse.dropWhile regexWs).reverse)

/-- Index of the first occurrence of `c` (JavaScript `indexOf`, with `none`
for `-1`). -/
def idxOf (c : Char) (l : List Char) : Option Nat :=
  l.findIdx? (fun x => x = c)

/-- Index of the last occurrence of `c` (JavaScript `lastIndexOf`). -/
def lastIdxOf (c : Char) (l : List Char) : Option Nat :=
  match idxOf c l.reverse with
  | some i => some (l.length - 1 - i)
  | none => none

/-- Model of `extractJson(text)` from src/index.js lines 40-51: candidate =
fenced block body or whole text; first try the first-brace..last-brace
slice, then the whole candidate; `null` when both parses fail. -/
def extractJson (text : List Char) : Option Json :=
  if text = [] then none
  else
    let candidate := (fenceInner text).getD text
    let sliceTry : Option Json :=
      match idxOf '{' candidate, lastIdxOf '}' candidate with
      | some s, some e =>
        if s < e then jsonParse ((candidate.drop s).take (e + 1 - s)) else none
      | _, _ => none
    match sliceTry with
    | some v => some v
    | none => jsonParse candidate

/-! ### The `/generate` recovery path (src/index.js, lines 157-167) -/

/-- Field names used by the handler. -/
def subjectKey : List Char := "subject".data

def bodyKey : List Char := "body".data

def emailsKey : List Char := "emails".data

def draftWord : List Char := "Draft".data

/-- Filter predicate on entries of `parsed.emails`: the entry is truthy and
its `subject` and `body` are strings. -/
def validEmailEntry (e : Json) : Bool :=
  match jsonGet e subjectKey, jsonGet e bodyKey with
  | some (Json.str _), some (Json.str _) => true
  | _, _ => false

/-- The `else` branch of the handler: `JSON.parse(content)` accepted as a
single draft when its `subject` and `body` fields are truthy. -/
def singleParse (content : List Char) : List Json :=
  match jsonParse content with
  | some single =>
    let subjOk := match jsonGet single subjectKey with
      | some v => jsTruthy v
      | none => false
    let bodyOk := match jsonGet single bodyKey with
      | some v => jsTruthy v
      | none => false
    if subjOk && bodyOk then [single] else []
  | none => []

/-- The synthetic draft the handler falls back to:
`[{ subject: 'Draft', body: content }]`'s single element. -/
def draftFallback (content : List Char) : Json :=
  Json.obj [(subjectKey, Json.str draftWord), (bodyKey, Json.str content)]

/-- The emails array of the `/generate` response as a function of the raw
LLM text (src/index.js lines 157-167): recovered array filtered to valid
entries, else the single-object rescue, else the synthetic draft; a
nonempty result is truncated to `count` entries. -/
def generateEmails (count : Nat) (content : List Char) : List Json :=
  let emails : List Json :=
    match extractJson content with
    | some p =>
      if jsTruthy p then
        match jsonGet p emailsKey with
        | some (Json.arr es) => es.filter validEmailEntry
        | _ => singleParse content
      else singleParse content
    | none => singleParse content
  if emails = [] then [draftFallback content] else emails.take count

/-- Derived reading of the claim's antecedent: the emails array recovered
through `extractJson`, `none` when no parse attempt yields a truthy object
with an `emails` array. -/
def recoveredEmailArray (content : List Char) : Option (List Json) :=
  match extractJson content with
  | some p =>
    if jsTruthy p then
      match jsonGet p emailsKey with
      | some (Json.arr es) => some (es.filter validEmailEntry)
      | _ => none
    else none
  | none => none

/-! ### Daily free quota, part_000 (`freeQuota`, line 141)

The middleware chain of `POST /generate` in part_000 is
`detectPlan, freeQuota, genLimiter, handler`: the per-(ip, day) counter is
read and written in `freeQuota`, before the burst limiter, the input
validation and the vendor call. -/

inductive QuotaOut where
  | proceed
  | limited402
deriving DecidableEq

/-- One `freeQuota` evaluation on the counter `n` of the caller's
(ip, day) key: premium passes untouched; a free caller is refused with 402
at the daily limit and otherwise counted and passed through. -/
def freeQuota (limit : Nat) (premium : Bool) (n : Nat) : QuotaOut × Nat :=
  if premium then (QuotaOut.proceed, n)
  else if limit ≤ n then (QuotaOut.limited402, n)
  else (QuotaOut.proceed, n + 1)

structure Gen000Result where
  status402 : Bool
  vendorCalled : Bool
deriving DecidableEq

/-- One `POST /generate` request in part_000, for a free caller's key with
counter `n`: `freeQuota`, then the burst limiter (`burstOk`), then schema
validation (`valid`), and only then the vendor call inside the handler. -/
def handleGenerate000 (limit : Nat) (premium burstOk valid : Bool) (n : Nat) :
    Gen000Result × Nat :=
  match freeQuota limit premium n with
  | (QuotaOut.limited402, n2) => (⟨true, false⟩, n2)
  | (QuotaOut.proceed, n2) =>
    if burstOk = false then (⟨false, false⟩, n2)
    else if valid = false then (⟨false, false⟩, n2)
    else (⟨false, true⟩, n2)

/-- A day of free-tier requests against one (ip, day) key, each request
described by its (burstOk, valid) pair. -/
def run000 (limit : Nat) (n : Nat) : List (Bool × Bool) → List Gen000Result
  | [] => []
  | req :: rest =>
    let r := handleGenerate000 limit false req.1 req.2 n
    r.1 :: run000 limit r.2 rest

/-! ### The `/generate` gate of part_004 (lines 220-281) -/

structure UsageEntry where
  calls : Nat
  costCents : Nat
  limitHits : Nat
deriving DecidableEq

structure DayCounters where
  totalCalls : Nat
  limit402 : Nat
deriving DecidableEq

/-- part_004 line 113: the challenge becomes mandatory at three calls. -/
def FREE_CAPTCHA_AFTER : Nat := 3

/-- Model of `verifyTurnstile(token, ip)` (part_004 lines 134-147): with no
secret configured verification is disabled and reports success; otherwise
the vendor's `success` flag is returned, and a thrown network error
(`netResult = none`) is caught and reported as failure. -/
def verifyTurnstile (secretSet : Bool) (netResult : Option Bool) : Bool :=
  if secretSet = false then true
  else
    match netResult with
    | some ok => ok
    | none => false

inductive GenStatus where
  | ok200
  | quota402
  | captcha401
  | badInput400
  | vendor429
  | vendor500
deriving DecidableEq

inductive VendorOutcome where
  | success (costCents : Nat)
  | rateLimited
  | failure
deriving DecidableEq

structure Gen004Result where
  status : GenStatus
  vendorCalled : Bool
  entry : UsageEntry
  counters : DayCounters
deriving DecidableEq

/-- One `POST /generate` request in part_004 against the caller's usage
entry for today: bump `totalCalls`; free callers at the daily limit get 402
(and a `limitHits` bump) before anything else; free callers past the
challenge threshold whose token does not verify get 401; then schema
validation; then the vendor call, whose success increments `calls` and the
cost estimate. -/
def generate004 (freeLimit : Nat) (premium : Bool) (entry : UsageEntry)
    (counters : DayCounters) (secretSet : Bool) (netResult : Option Bool)
    (validInput : Bool) (vendor : VendorOutcome) : Gen004Result :=
  let counters := { counters with totalCalls := counters.totalCalls + 1 }
  if premium = false ∧ freeLimit ≤ entry.calls then
    { status := GenStatus.quota402, vendorCalled := false,
      entry := { entry with limitHits := entry.limitHits + 1 },
      counters := { counters with limit402 := counters.limit402 + 1 } }
  else if premium = false ∧ FREE_CAPTCHA_AFTER ≤ entry.calls ∧
      verifyTurnstile secretSet netResult = false then
    { status := GenStatus.captcha401, vendorCalled := false,
      entry := entry, counters := counters }
  else if validInput = false then
    { status := GenStatus.badInput400, vendorCalled := false,
      entry := entry, counters := counters }
  else
    match vendor with
    | VendorOutcome.success cost =>
      let entry2 := { entry with calls := entry.calls + 1, costCents := entry.costCents + cost }
      { status := GenStatus.ok200, vendorCalled := true,
        entry := entry2,
        counters := counters }
    | VendorOutcome.rateLimited =>
      { status := GenStatus.vendor429, vendorCalled := true,
        entry := entry, counters := counters }
    | VendorOutcome.failure =>
      { status := GenStatus.vendor500, vendorCalled := true,
        entry := entry, counters := counters }

/-! ### `/claim` and `/me` of part_004 (lines 202-218, 164) -/

structure EntitlementCookie where
  value : List Char
  maxAgeMs : Nat
deriving DecidableEq

structure ClaimResult where
  status : Nat
  cookie : Option EntitlementCookie
deriving DecidableEq

/-- Model of `POST /claim`: `retrieved` is the checkout-session lookup —
`none` when `stripe.checkout.sessions.retrieve` throws, otherwise the
session's expanded subscription (`none` when the session has none) carrying
its status string.  The signed `ap_premium` cookie is set to the literal
value 1 for thirty days exactly when the status is trialing, active or
past_due. -/
def claim004 (sessionId : List Char) (retrieved : Option (Option (List Char))) :
    ClaimResult :=
  if sessionId = [] then ⟨400, none⟩
  else
    match retrieved with
    | none => ⟨500, none⟩
    | some subscription =>
      match subscription with
      | none => ⟨402, none⟩
      | some status =>
        if status = "trialing".data ∨ status = "active".data ∨
            status = "past_due".data then
          ⟨200, some ⟨['1'], 30 * 24 * 3600 * 1000⟩⟩
        else ⟨402, none⟩

/-- Model of `GET /me`: premium iff the signed `ap_premium` cookie reads 1. -/
def me004 (cookie : Option (List Char)) : Bool := cookie = some ['1']

/-- `GET /me` immediately after a `/claim` response, for a client that held
no prior entitlement cookie. -/
def meAfterClaim (r : ClaimResult) : Bool :=
  me004 (r.cookie.map (fun c => c.value))

/-! ### Variant caps (part_003 line 183-184, part_004 line 249, index.js
line 133) -/

inductive Plan where
  | free
  | standard
  | premium
deriving DecidableEq

/-- part_003: `cap = plan==='premium' ? 5 : plan==='standard' ? 3 : 1`. -/
def variantCap003 : Plan → Int
  | Plan.premium => 5
  | Plan.standard => 3
  | Plan.free => 1

/-- part_003: `n = Math.max(1, Math.min(cap, requested))`. -/
def variants003 (plan : Plan) (requested : Int) : Int :=
  max 1 (min (variantCap003 plan) requested)

/-- part_004 line 249: `variants = premium ? data.variants : 1`, where the
zod schema has already bounded `data.variants` to 1..3. -/
def variants004 (premium : Bool) (v : Nat) : Nat := if premium then v else 1

/-- index.js line 133:
`count = Math.max(1, Math.min(5, parseInt(variants, 10) || 1))`; `parsed`
is `none` when `parseInt` returns NaN, and a parsed 0 is falsy, so both
fall back to 1 before clamping. -/
def countIndexJs (parsed : Option Int) : Int :=
  max 1 (min 5 (match parsed with
    | none => 1
    | some v => if v = 0 then 1 else v))

/-- index.js sends no `n` parameter in its completions request body, so the
vendor default of a single completion applies to every request. -/
def completionsIndexJs : Nat := 1

/-! ### The burst rate limiter of index.js (lines 54-68)

Per identity, the limiter keeps the timestamps admitted recently; a request
whose window already holds `RATE_LIMIT_MAX` timestamps is answered 429 with
`retry_in_ms = max(fresh[0] + window - now, 0)` and the bucket unchanged;
otherwise the refreshed bucket plus the new timestamp is stored. -/

inductive BurstOutcome where
  | admitted
  | rejected429 (retryInMs : Int)
deriving DecidableEq

def rateLimitStep (maxReq : Nat) (windowMs : Int) (arr : List Int) (now : Int) :
    BurstOutcome × List Int :=
  let fresh := arr.filter (fun t => decide (now - windowMs ≤ t))
  if maxReq ≤ fresh.length then
    (BurstOutcome.rejected429 (max (fresh.headI + windowMs - now) 0), arr)
  else (BurstOutcome.admitted, fresh ++ [now])

/-- A sequence of requests from one identity at the given timestamps. -/
def rateLimitRun (maxReq : Nat) (windowMs : Int) (arr : List Int) :
    List Int → List (Int × BurstOutcome)
  | [] => []
  | t :: ts =>
    let r := rateLimitStep maxReq windowMs arr t
    (t, r.1) :: rateLimitRun maxReq windowMs r.2 ts

/-- The timestamps of the admitted requests of a run. -/
def admittedOf (run : List (Int × BurstOutcome)) : List Int :=
  (run.filter (fun p => decide (p.2 = BurstOutcome.admitted))).map Prod.fst

/-! ### Environment handling (part_001 lines 17-37, part_000 lines 34-35,
index.js line 128)

Environment variables are modelled as `Option (List Char)` — `none` for an
absent variable.  part_001's zod schema rejects an absent required variable
(zod's `z.string()` fails on `undefined`); its `.url()` format check on
`APP_BASE_URL` is not modelled, which only matters for malformed (not
absent) values and for no claim here. -/

structure EnvInput where
  envOpenaiApiKey : Option (List Char)
  envStripeSecretKey : Option (List Char)
  envStripePublishableKey : Option (List Char)
  envStandardPriceId : Option (List Char)
  envPremiumPriceId : Option (List Char)
  envAppBaseUrl : Option (List Char)
  envAppSecret : Option (List Char)
deriving DecidableEq

structure Env001 where
  apiKey : List Char
  stripeKey : List Char
  standardPrice : List Char
  premiumPrice : List Char
  baseUrl : List Char
  appSecret : Option (List Char)
deriving DecidableEq

/-- Model of part_001's `Env.parse(process.env)`: the five required
variables must be present; `APP_SECRET` is optional but, when present, at
least 32 characters. -/
def envParse001 (i : EnvInput) : Option Env001 :=
  match i.envOpenaiApiKey, i.envStripeSecretKey, i.envStandardPriceId,
      i.envPremiumPriceId, i.envAppBaseUrl with
  | some a, some s, some std, some prem, some url =>
    match i.envAppSecret with
    | some sec => if 32 ≤ sec.length then some ⟨a, s, std, prem, url, some sec⟩ else none
    | none => some ⟨a, s, std, prem, url, none⟩
  | _, _, _, _, _ => none

/-- part_001 line 37: a failed parse reaches `process.exit(1)`; a successful
one starts the server. -/
def startupExits001 (i : EnvInput) : Bool := (envParse001 i).isNone

/-- index.js performs no startup validation of its configuration: the
`listen` call is unconditional, so startup never halts for a missing
variable. -/
def startupExitsIndexJs (_ : EnvInput) : Bool := false

/-- part_000 lines 34-35 compute the list of missing required variables
(an unset variable defaults to the empty string there) but the server
starts regardless; the list is only reported by `/health`. -/
def missing000 (i : EnvInput) : List (List Char) :=
  (["OPENAI_API_KEY".data, "STRIPE_SECRET_KEY".data, "STRIPE_PUBLISHABLE_KEY".data,
    "STANDARD_PRICE_ID".data, "PREMIUM_PRICE_ID".data].zip
    [i.envOpenaiApiKey, i.envStripeSecretKey, i.envStripePublishableKey,
     i.envStandardPriceId, i.envPremiumPriceId]).filterMap
    (fun kv => if kv.2.getD [] = [] then some kv.1 else none)

def startupExits000 (_ : EnvInput) : Bool := false

/-- index.js `/generate` (lines 126-170): the missing-key check happens at
request time — the handler runs and answers 500 when `OPENAI_API_KEY` is
falsy (absent or empty), then 400 on missing fields, then the vendor call
decides 200 against 502. -/
def generateStatusIndexJs (apiKey : Option (List Char)) (hasJobAndSkills : Bool)
    (vendorOk : Bool) : Nat :=
  if apiKey.getD [] = [] then 500
  else if hasJobAndSkills = false then 400
  else if vendorOk then 200 else 502

/-! ### `GET /metrics` of part_004 (lines 283-290) -/

/-- Does `l` end with `suffix`?  (JavaScript `String.prototype.endsWith`.) -/
def leadsWith : List Char → List Char → Bool
  | [], _ => true
  | _ :: _, [] => false
  | a :: ps, b :: ls => a = b && leadsWith ps ls

def endsWithKey (l suffix : List Char) : Bool := leadsWith suffix.reverse l.reverse

structure MetricsOut where
  today : List Char
  uniqueIPs : Nat
  totalCalls : Nat
  limit402 : Nat
  estCostUSD : ℚ
deriving DecidableEq

/-- Model of `GET /metrics`: one pass over the usage map counting the keys
that end in today's date and summing their cost cents; the spend is the
cent total over 100 (the source's `toFixed(4)` redisplay of `cents/100` is
exact, so it is modelled as the exact rational). -/
def metrics004 (usage : List (List Char × UsageEntry)) (counters : DayCounters)
    (today : List Char) : MetricsOut :=
  let tallies := usage.foldl
    (fun acc kv => if endsWithKey kv.1 today then (acc.1 + 1, acc.2 + kv.2.costCents) else acc)
    ((0 : Nat), (0 : Nat))
  ⟨today, tallies.1, counters.totalCalls, counters.limit402, (tallies.2 : ℚ) / 100⟩

/-! ### The entitlement token pair of part_000 (lines 130-132)

`signToken` base64url-encodes the JSON payload and appends an HMAC-SHA256
tag; `verifyToken` splits at the dots, recomputes the tag, decodes, parses,
and applies the expiry check.  The HMAC itself is vendor crypto
(`node:crypto`), modelled as an arbitrary function parameter `hmac`; byte
coding of text is modelled for ASCII (UTF-8 agrees there). -/

def b64Ch (n : Nat) : Char :=
  if n < 26 then Char.ofNat (65 + n)
  else if n < 52 then Char.ofNat (97 + n - 26)
  else if n < 62 then Char.ofNat (48 + n - 52)
  else if n = 62 then '-'
  else '_'

def b64ChVal (c : Char) : Option Nat :=
  if 'A' ≤ c && c ≤ 'Z' then some (c.toNat - 65)
  else if 'a' ≤ c && c ≤ 'z' then some (c.toNat - 97 + 26)
  else if '0' ≤ c && c ≤ '9' then some (c.toNat - 48 + 52)
  else if c = '-' then some 62
  else if c = '_' then some 63
  else none

/-- base64url encoding, unpadded (Node's `base64url`). -/
def b64urlEncode : List Nat → List Char
  | [] => []
  | [b1] => [b64Ch (b1 / 4), b64Ch (b1 % 4 * 16)]
  | [b1, b2] => [b64Ch (b1 / 4), b64Ch (b1 % 4 * 16 + b2 / 16), b64Ch (b2 % 16 * 4)]
  | b1 :: b2 :: b3 :: rest =>
    b64Ch (b1 / 4) :: b64Ch (b1 % 4 * 16 + b2 / 16) ::
      b64Ch (b2 % 16 * 4 + b3 / 64) :: b64Ch (b3 % 64) :: b64urlEncode rest

/-- base64url decoding.  On a valid unpadded encoding this inverts
`b64urlEncode`; unlike Node (which skips bad characters) a bad character
fails the decode — the difference is unobservable in the theorems below,
which reach the decoder only on valid encodings. -/
def b64urlDecode : List Char → Option (List Nat)
  | [] => some []
  | [_] => some []
  | [c1, c2] =>
    match b64ChVal c1, b64ChVal c2 with
    | some v1, some v2 => some [v1 * 4 + v2 / 16]
    | _, _ => none
  | [c1, c2, c3] =>
    match b64ChVal c1, b64ChVal c2, b64ChVal c3 with
    | some v1, some v2, some v3 => some [v1 * 4 + v2 / 16, v2 % 16 * 16 + v3 / 4]
    | _, _, _ => none
  | c1 :: c2 :: c3 :: c4 :: rest =>
    match b64ChVal c1, b64ChVal c2, b64ChVal c3, b64ChVal c4 with
    | some v1, some v2, some v3, some v4 =>
      match b64urlDecode rest with
      | some bs => some ((v1 * 4 + v2 / 16) :: (v2 % 16 * 16 + v3 / 4) :: (v3 % 4 * 64 + v4) :: bs)
      | none => none
    | _, _, _, _ => none

/-- `Buffer.from(string)` for ASCII text (UTF-8 agrees below code 128). -/
def charsToBytes (s : List Char) : List Nat := s.map Char.toNat

/-- `buffer.toString()` for ASCII bytes. -/
def bytesToChars (bs : List Nat) : List Char := bs.map Char.ofNat

/-- The key of the expiry field of a token payload. -/
def expKey : List Char := "exp".data

/-- The segment before the first dot, and the remainder after it if any
(so JavaScript's `const [data, sig] = token.split('.')` reads off the
results of two applications). -/
def takeToDot : List Char → List Char × Option (List Char)
  | [] => ([], none)
  | c :: rest =>
    if c = '.' then ([], some rest)
    else
      let p := takeToDot rest
      (c :: p.1, p.2)

/-- Model of `signToken(payload)` (part_000 line 131): base64url of the
JSON text, a dot, and the HMAC tag of that base64url data. -/
def signToken (hmac : List Char → List Char) (payload : Json) : List Char :=
  let data := b64urlEncode (charsToBytes (printJson payload))
  data ++ '.' :: hmac data

/-- Model of `verifyToken(token)` (part_000 line 132): reject an empty or
dot-free token; split off the first two dot-separated segments; reject a
tag that differs from the recomputed HMAC; decode and parse the payload
(a failure of either is the caught exception path); and reject a payload
whose `exp` is a nonzero number strictly before `now` — `Date.now()/1000 >
exp` is `nowMs > 1000*exp` exactly.  A truthy non-numeric `exp` (which no
token minted by the service carries) is not modelled: the payload is
returned there. -/
def verifyToken (hmac : List Char → List Char) (nowMs : Int) (token : List Char) :
    Option Json :=
  if token = [] then none
  else
    match takeToDot token with
    | (_, none) => none
    | (data, some rest) =>
      let sig := (takeToDot rest).1
      if sig = hmac data then
        match b64urlDecode data with
        | none => none
        | some bytes =>
          match jsonParse (bytesToChars bytes) with
          | none => none
          | some payload =>
            match jsonGet payload expKey with
            | some (Json.num e) =>
              if e ≠ 0 ∧ nowMs > 1000 * e then none else some payload
            | _ => some payload
      else none

/-- ASCII string content that needs no JSON escaping: printable, below code
128, and neither a quote nor a backslash. -/
def safeChar (c : Char) : Bool :=
  32 ≤ c.toNat && c.toNat < 128 && c ≠ '"' && c ≠ '\\'

mutual

/-- Payloads whose strings (keys and values) are `safeChar` throughout; the
round-trip theorems quantify over these. -/
def jsonSafe : Json → Bool
  | Json.null => true
  | Json.bool _ => true
  | Json.num _ => true
  | Json.str s => s.all safeChar
  | Json.arr es => jsonSafeList es
  | Json.obj fs => jsonSafeFields fs

def jsonSafeList : List Json → Bool
  | [] => true
  | e :: es => jsonSafe e && jsonSafeList es

def jsonSafeFields : List (List Char × Json) → Bool
  | [] => true
  | kv :: fs => kv.1.all safeChar && jsonSafe kv.2 && jsonSafeFields fs

end

/-- A stand-in HMAC used to instantiate the token theorems on concrete
inputs (the theorems quantify over the HMAC function). -/
def hmacStub : List Char → List Char := fun _ => "SIG".data

/-- The number of timestamps of `l` inside the closed window
`[x, x + windowMs]`. -/
def windowCount (windowMs x : Int) (l : List Int) : Nat :=
  l.countP (fun t => decide (x ≤ t ∧ t ≤ x + windowMs))

/-! ### Fuel measures for the parser round-trip proofs -/

mutual

/-- Enough `parseVal` fuel to consume the printed form of a value. -/
def jfuel : Json → Nat
  | Json.null => 1
  | Json.bool _ => 1
  | Json.num _ => 1
  | Json.str _ => 1
  | Json.arr [] => 1
  | Json.arr (e :: es) => 1 + elemsFuel (e :: es)
  | Json.obj [] => 1
  | Json.obj (kv :: fs) => 1 + pairsFuel (kv :: fs)

def elemsFuel : List Json → Nat
  | [] => 0
  | e :: es => 1 + max (jfuel e) (elemsFuel es)

def pairsFuel : List (List Char × Json) → Nat
  | [] => 0
  | kv :: fs => 1 + max (jfuel kv.2) (pairsFuel fs)

end

/-! ## Theorems -/

/-- C5: a request carrying a valid premium entitlement never receives the
402 daily-quota answer nor the 401 challenge answer from `/generate`,
whatever today's usage entry, challenge configuration and outcome, input
validity and vendor outcome are: both gates are conditioned on
`premium = false`. -/
theorem premium_bypasses_quota_and_captcha (freeLimit : Nat) (entry : UsageEntry)
    (counters : DayCounters) (secretSet : Bool) (netResult : Option Bool)
    (validInput : Bool) (vendor : VendorOutcome) :
    (generate004 freeLimit true entry counters secretSet netResult validInput
        vendor).status ≠ GenStatus.quota402 ∧
    (generate004 freeLimit true entry counters secretSet netResult validInput
        vendor).status ≠ GenStatus.captcha401 := by
  cases vendor <;>
    · simp only [generate004]
      split
      · rename_i h; exact absurd h.1 (by decide)
      · split
        · rename_i h; exact absurd h.1 (by decide)
        · split <;> exact ⟨(fun h => nomatch h), (fun h => nomatch h)⟩

/-- C6: the completion count sent to the vendor in one call is capped by
tier, independently of the client-supplied variants value: part_003 sends
exactly 1 for a free caller, at most 3 for standard and 5 for premium, and
always at least 1; part_004 (whose schema admits 1..3) sends exactly 1 for
a free caller and the schema-bounded value for premium; index.js omits the
completions parameter entirely, so one completion per call, and its
prompt-embedded count is clamped to 1..5. -/
theorem variant_count_caps (v : Nat) (hv1 : 1 ≤ v) (hv3 : v ≤ 3) :
    (∀ r : Int, variants003 Plan.free r = 1) ∧
    (∀ p r, 1 ≤ variants003 p r ∧ variants003 p r ≤ 5) ∧
    (∀ r : Int, variants003 Plan.standard r ≤ 3) ∧
    variants004 false v = 1 ∧
    (1 ≤ variants004 true v ∧ variants004 true v ≤ 3) ∧
    completionsIndexJs = 1 ∧
    (∀ o : Option Int, 1 ≤ countIndexJs o ∧ countIndexJs o ≤ 5) := by
  refine ⟨?_, ?_, ?_, rfl, ?_, rfl, ?_⟩
  · intro r
    exact max_eq_left (min_le_left 1 r)
  · intro p r
    refine ⟨le_max_left 1 _, max_le ?_ (le_trans (min_le_left _ r) ?_)⟩
    · omega
    · cases p <;> simp [variantCap003]
  · intro r
    exact max_le (by omega) (min_le_left 3 r)
  · simpa [variants004] using ⟨hv1, hv3⟩
  · intro o
    constructor
    · exact le_max_left 1 _
    · exact max_le (by omega) (min_le_left 5 _)

/-- C6 witness: the cap theorem applied at a concrete schema-bounded
variants value. -/
theorem variant_count_caps_witness :
    (1 ≤ 2 ∧ 2 ≤ 3) ∧ variants003 Plan.free 7 = 1 ∧ variants004 false 2 = 1 :=
  ⟨⟨by decide, by decide⟩,
    (variant_count_caps 2 (by decide) (by decide)).1 7,
    (variant_count_caps 2 (by decide) (by decide)).2.2.2.1⟩

/-- Outcomes of one part_000 request on a free caller: at the limit the
result is the 402 with the counter unchanged; below it, no 402 and the
counter advances — whatever the burst limiter and validation do. -/
theorem handle000_cases (limit : Nat) (b v : Bool) (c : Nat) :
    (limit ≤ c ∧ handleGenerate000 limit false b v c = (⟨true, false⟩, c)) ∨
    (¬limit ≤ c ∧ (handleGenerate000 limit false b v c).1.status402 = false ∧
      (handleGenerate000 limit false b v c).2 = c + 1) := by
  by_cases hc : limit ≤ c
  · left
    exact ⟨hc, by simp [handleGenerate000, freeQuota, hc]⟩
  · right
    refine ⟨hc, ?_, ?_⟩ <;>
      · simp only [handleGenerate000, freeQuota, Bool.false_eq_true, if_false, if_neg hc]
        split
        · rfl
        · split <;> rfl

/-- In part_000, the free-quota counter admits exactly while below the
limit: starting from counter `c`, the `i`-th request of a free-tier day is
402-refused exactly when `limit ≤ c + i`, and a 402 is decided in the
`freeQuota` middleware, before the handler that calls the vendor. -/
theorem run000_spec (limit : Nat) :
    ∀ (reqs : List (Bool × Bool)) (c i : Nat) (out : Gen000Result),
      (run000 limit c reqs).get? i = some out →
      out.status402 = decide (limit ≤ c + i) ∧
      (out.status402 = true → out.vendorCalled = false) := by
  intro reqs
  induction reqs with
  | nil => intro c i out h; simp [run000] at h
  | cons req rest ih =>
    intro c i out h
    rcases handle000_cases limit req.1 req.2 c with ⟨hc, heq⟩ | ⟨hc, hst, hcnt⟩
    · match i with
      | 0 =>
        simp only [run000, List.get?, heq] at h
        rw [Option.some_inj] at h
        subst h
        refine ⟨by simp [hc], fun _ => rfl⟩
      | Nat.succ j =>
        simp only [run000, List.get?, heq] at h
        have step := ih _ j out h
        refine ⟨?_, step.2⟩
        rw [step.1, decide_eq_decide]
        omega
    · match i with
      | 0 =>
        simp only [run000, List.get?] at h
        rw [Option.some_inj] at h
        subst h
        refine ⟨?_, ?_⟩
        · rw [hst, eq_comm, decide_eq_false_iff_not]
          omega
        · intro hfalse
          rw [hst] at hfalse
          exact absurd hfalse (by decide)
      | Nat.succ j =>
        simp only [run000, List.get?, hcnt] at h
        have step := ih _ j out h
        refine ⟨?_, step.2⟩
        rw [step.1, decide_eq_decide]
        omega

/-- C1: for a free-tier identity the first `limit` `/generate` requests of a
day are not 402-refused by the quota check and every later request of that
day is answered 402 with no vendor call: in part_000 the `i`-th request
(counting from zero) of a free (ip, day) key is refused exactly when
`limit ≤ i`, and a refusal carries no vendor call; in part_004 a free
request finding today's call counter at the limit is answered 402 with no
vendor call, and below the limit the quota gate never answers 402. -/
theorem daily_quota_gate (limit : Nat) (reqs : List (Bool × Bool)) (i : Nat)
    (out : Gen000Result) (h : (run000 limit 0 reqs).get? i = some out) :
    (out.status402 = decide (limit ≤ i)) ∧
    (out.status402 = true → out.vendorCalled = false) ∧
    (∀ entry counters secretSet netResult validInput vendor, limit ≤ entry.calls →
      (generate004 limit false entry counters secretSet netResult validInput
          vendor).status = GenStatus.quota402 ∧
      (generate004 limit false entry counters secretSet netResult validInput
          vendor).vendorCalled = false) ∧
    (∀ entry counters secretSet netResult validInput vendor, entry.calls < limit →
      (generate004 limit false entry counters secretSet netResult validInput
          vendor).status ≠ GenStatus.quota402) := by
  have base := run000_spec limit reqs 0 i out h
  refine ⟨by simpa using base.1, base.2, ?_, ?_⟩
  · intro entry counters secretSet netResult validInput vendor hcalls
    constructor <;> simp [generate004, hcalls]
  · intro entry counters secretSet netResult validInput vendor hcalls
    intro hcontr
    simp only [generate004] at hcontr
    split at hcontr
    · rename_i hand
      exact absurd hand.2 (by omega)
    · split at hcontr
      · simp at hcontr
      · split at hcontr
        · simp at hcontr
        · cases vendor <;> simp at hcontr

/-- C1 witness: with a daily limit of 2, the third free request of the day
is 402-refused without a vendor call, and the part_004 gate refuses a free
caller whose counter is at the limit. -/
theorem daily_quota_gate_witness :
    ((run000 2 0 [(true, true), (true, true), (true, true)]).get? 2 =
      some ⟨true, false⟩) ∧
    ((true : Bool) = decide (2 ≤ 2)) ∧
    (generate004 2 false ⟨2, 0, 0⟩ ⟨0, 0⟩ false none true
        (VendorOutcome.success 0)).status = GenStatus.quota402 := by
  have happ := daily_quota_gate 2 [(true, true), (true, true), (true, true)] 2
    ⟨true, false⟩ (by decide)
  exact ⟨by decide, happ.1,
    (happ.2.2.1 ⟨2, 0, 0⟩ ⟨0, 0⟩ false none true (VendorOutcome.success 0)
      (by decide)).1⟩

/-- C3 (amended): a free `/generate` request past the challenge threshold
and below the daily cap whose token does not verify — including a thrown
verification network call, which `verifyTurnstile` reports as failure — is
answered 401 with no vendor call; verification failure is never bypassed
in that region. -/
theorem captcha_fail_closed (freeLimit : Nat) (entry : UsageEntry)
    (counters : DayCounters) (secretSet : Bool) (netResult : Option Bool)
    (validInput : Bool) (vendor : VendorOutcome)
    (hthresh : FREE_CAPTCHA_AFTER ≤ entry.calls)
    (hbelow : entry.calls < freeLimit)
    (hfail : verifyTurnstile secretSet netResult = false) :
    (generate004 freeLimit false entry counters secretSet netResult validInput
        vendor).status = GenStatus.captcha401 ∧
    (generate004 freeLimit false entry counters secretSet netResult validInput
        vendor).vendorCalled = false ∧
    verifyTurnstile true none = false := by
  simp only [generate004]
  split
  · rename_i hand
    exact absurd hand.2 (by omega)
  · split
    · exact ⟨rfl, rfl, rfl⟩
    · rename_i hcap
      exact absurd ⟨by trivial, hthresh, hfail⟩ hcap

/-- C3 counterexample: as stated, the claim promises 401 for any free
request past the challenge threshold whose token does not verify; but a
request that has also reached the daily cap (calls = 5 = default limit,
which is past the threshold 3) is answered 402, not 401: the quota gate
runs first. -/
theorem captcha_claim_counterexample :
    FREE_CAPTCHA_AFTER ≤ 5 ∧
    verifyTurnstile true (some false) = false ∧
    (generate004 5 false ⟨5, 0, 0⟩ ⟨0, 0⟩ true (some false) true
        (VendorOutcome.success 0)).status = GenStatus.quota402 ∧
    (generate004 5 false ⟨5, 0, 0⟩ ⟨0, 0⟩ true (some false) true
        (VendorOutcome.success 0)).status ≠ GenStatus.captcha401 := by
  refine ⟨by decide, by decide, by decide, by decide⟩

/-- C3 witness: the amended theorem applied at calls = 3 of a daily limit
of 5, with the verification network call thrown. -/
theorem captcha_fail_closed_witness :
    FREE_CAPTCHA_AFTER ≤ 3 ∧ (3 : Nat) < 5 ∧
    verifyTurnstile true none = false ∧
    (generate004 5 false ⟨3, 0, 0⟩ ⟨0, 0⟩ true none true
        (VendorOutcome.success 0)).status = GenStatus.captcha401 :=
  ⟨by decide, by decide, by decide,
    (captcha_fail_closed 5 ⟨3, 0, 0⟩ ⟨0, 0⟩ true none true
      (VendorOutcome.success 0) (by decide) (by decide) (by decide)).1⟩

/-- C4: for a `/claim` request carrying a session identifier, the
entitlement cookie is set — with the literal value 1 and a thirty-day
(2592000000 ms) validity — exactly when the session's subscription status
is trialing, active or past_due; any other status (canceled included) gets
the 402 no-active-subscription answer with no cookie, after which `/me`
reports no premium, while a successful claim makes the subsequent `/me`
report premium. -/
theorem claim_entitlement (sessionId : List Char)
    (retrieved : Option (Option (List Char))) (hsid : sessionId ≠ []) :
    ((∃ c, (claim004 sessionId retrieved).cookie = some c) ↔
      (∃ s, retrieved = some (some s) ∧
        (s = "trialing".data ∨ s = "active".data ∨ s = "past_due".data))) ∧
    (∀ c, (claim004 sessionId retrieved).cookie = some c →
      c.value = ['1'] ∧ c.maxAgeMs = 2592000000) ∧
    (∀ s, retrieved = some (some s) →
      ¬(s = "trialing".data ∨ s = "active".data ∨ s = "past_due".data) →
      claim004 sessionId retrieved = ⟨402, none⟩ ∧
      meAfterClaim (claim004 sessionId retrieved) = false) ∧
    (retrieved = some (some ("active".data)) →
      meAfterClaim (claim004 sessionId retrieved) = true ∧
      (claim004 sessionId retrieved).status = 200) := by
  simp only [claim004, if_neg hsid]
  rcases retrieved with _ | sub
  · refine ⟨?_, ?_, ?_, ?_⟩
    · simp
    · simp
    · intro s hs
      exact absurd hs (by simp)
    · intro hs
      exact absurd hs (by simp)
  · rcases sub with _ | status
    · refine ⟨?_, ?_, ?_, ?_⟩
      · simp
      · simp
      · intro s hs
        exact absurd hs (by simp)
      · intro hs
        exact absurd hs (by simp)
    · by_cases hok : status = "trialing".data ∨ status = "active".data ∨
          status = "past_due".data
      · simp only [if_pos hok]
        refine ⟨?_, ?_, ?_, ?_⟩
        · exact ⟨fun _ => ⟨status, rfl, hok⟩, fun _ => ⟨_, rfl⟩⟩
        · intro c hc
          rw [Option.some_inj] at hc
          rw [← hc]
          exact ⟨rfl, by norm_num⟩
        · intro s hs hbad
          rw [Option.some_inj, Option.some_inj] at hs
          exact absurd (hs ▸ hok) hbad
        · intro _
          exact ⟨by simp [meAfterClaim, me004], by trivial⟩
      · simp only [if_neg hok]
        refine ⟨?_, ?_, ?_, ?_⟩
        · constructor
          · rintro ⟨c, hc⟩
            simp at hc
          · rintro ⟨s, hs, hsok⟩
            rw [Option.some_inj, Option.some_inj] at hs
            exact absurd (hs ▸ hsok) hok
        · intro c hc
          simp at hc
        · intro s hs hbad
          exact ⟨by trivial, by simp [meAfterClaim, me004]⟩
        · intro hs
          rw [Option.some_inj, Option.some_inj] at hs
          exact absurd (hs ▸ (by decide : ("active".data = "trialing".data ∨
            "active".data = "active".data ∨ "active".data = "past_due".data))) hok

/-- C4 witness: with an active subscription the claim sets the cookie and
the following `/me` reports premium; with a canceled one the claim is the
402 with no cookie. -/
theorem claim_entitlement_witness :
    (['s'] : List Char) ≠ [] ∧
    meAfterClaim (claim004 ['s'] (some (some ("active".data)))) = true ∧
    claim004 ['s'] (some (some ("canceled".data))) = ⟨402, none⟩ :=
  ⟨by decide,
    ((claim_entitlement ['s'] (some (some ("active".data))) (by decide)).2.2.2
      rfl).1,
    ((claim_entitlement ['s'] (some (some ("canceled".data))) (by decide)).2.2.1
      ("canceled".data) rfl (by decide)).1⟩

/-- C8 (amended): the zod revisions fail fast — with any of the five
required variables absent, part_001's `Env.parse` rejects and startup exits
before any handler is installed — while the index.js and part_000
revisions start regardless and degrade at request time: index.js's
`/generate` handler runs and answers 500 when the LLM key is absent or
empty. -/
theorem config_fail_fast (i : EnvInput)
    (h : i.envOpenaiApiKey = none ∨ i.envStripeSecretKey = none ∨
      i.envStandardPriceId = none ∨ i.envPremiumPriceId = none ∨
      i.envAppBaseUrl = none) :
    startupExits001 i = true ∧
    (∀ e, envParse001 i ≠ some e) ∧
    (∀ hasJobAndSkills vendorOk,
      generateStatusIndexJs none hasJobAndSkills vendorOk = 500) ∧
    startupExitsIndexJs i = false ∧
    startupExits000 i = false := by
  have hn : envParse001 i = none := by
    unfold envParse001
    rcases h with h | h | h | h | h <;>
      · rcases e1 : i.envOpenaiApiKey with _ | a <;>
        rcases e2 : i.envStripeSecretKey with _ | b <;>
        rcases e3 : i.envStandardPriceId with _ | c <;>
        rcases e4 : i.envPremiumPriceId with _ | d <;>
        rcases e5 : i.envAppBaseUrl with _ | e <;>
          simp_all
  refine ⟨?_, ?_, ?_, rfl, rfl⟩
  · simp [startupExits001, hn]
  · intro e
    rw [hn]
    exact fun hcontr => nomatch hcontr
  · intro hasJobAndSkills vendorOk
    rfl

/-- C8 counterexample: in the index.js revision nothing halts at startup
under a fully missing configuration, and the `/generate` handler still
runs — it answers 500 at request time for the missing LLM key — refuting
the claim that no request handler ever runs under missing required
configuration. -/
theorem config_claim_counterexample :
    startupExitsIndexJs ⟨none, none, none, none, none, none, none⟩ = false ∧
    startupExits000 ⟨none, none, none, none, none, none, none⟩ = false ∧
    missing000 ⟨none, none, none, none, none, none, none⟩ ≠ [] ∧
    generateStatusIndexJs none true true = 500 := by
  refine ⟨rfl, rfl, by decide, rfl⟩

/-- C8 witness: the amended theorem applied to an environment missing only
the LLM API key. -/
theorem config_fail_fast_witness :
    ((⟨none, some ['k'], some ['p'], some ['q'], some ['u'], none,
        none⟩ : EnvInput).envOpenaiApiKey = none) ∧
    startupExits001 ⟨none, some ['k'], some ['p'], some ['q'], some ['u'], none,
      none⟩ = true :=
  ⟨rfl,
    (config_fail_fast ⟨none, some ['k'], some ['p'], some ['q'], some ['u'],
      none, none⟩ (Or.inl rfl)).1⟩

/-- The metrics fold tallies exactly the today-suffixed entries: count on
the left, cent sum on the right. -/
theorem metricsFold_spec (today : List Char) :
    ∀ (usage : List (List Char × UsageEntry)) (a b : Nat),
      usage.foldl (fun acc kv =>
        if endsWithKey kv.1 today then (acc.1 + 1, acc.2 + kv.2.costCents)
        else acc) (a, b) =
      (a + (usage.filter (fun kv => endsWithKey kv.1 today)).length,
        b + ((usage.filter (fun kv => endsWithKey kv.1 today)).map
          (fun kv => kv.2.costCents)).sum) := by
  intro usage
  induction usage with
  | nil =>
    intro a b
    simp
  | cons kv rest ih =>
    intro a b
    cases hk : endsWithKey kv.1 today
    · simp only [List.foldl_cons, List.filter_cons, hk]
      rw [ih]
      simp
    · simp only [List.foldl_cons, List.filter_cons, hk]
      rw [ih]
      simp
      constructor <;> omega

/-- C9: `GET /metrics` reports, for the current day key, the number of
usage-map entries whose key ends with today's date, the process-lifetime
total call and 402 counters, and an estimated spend equal to the sum of
the per-identity cost cents of today's entries divided by one hundred. -/
theorem metrics_aggregates (usage : List (List Char × UsageEntry))
    (counters : DayCounters) (today : List Char) :
    (metrics004 usage counters today).today = today ∧
    (metrics004 usage counters today).uniqueIPs =
      (usage.filter (fun kv => endsWithKey kv.1 today)).length ∧
    (metrics004 usage counters today).totalCalls = counters.totalCalls ∧
    (metrics004 usage counters today).limit402 = counters.limit402 ∧
    (metrics004 usage counters today).estCostUSD =
      (((usage.filter (fun kv => endsWithKey kv.1 today)).map
        (fun kv => (kv.2.costCents : ℚ))).sum) / 100 := by
  have hfold := metricsFold_spec today usage 0 0
  refine ⟨rfl, ?_, rfl, rfl, ?_⟩
  · simp only [metrics004, hfold]
    omega
  · simp only [metrics004, hfold]
    norm_num
    rfl

theorem admittedOf_cons_admitted (t : Int) (rest : List (Int × BurstOutcome)) :
    admittedOf ((t, BurstOutcome.admitted) :: rest) = t :: admittedOf rest := by
  simp [admittedOf]

theorem admittedOf_cons_rejected (t : Int) (r : Int)
    (rest : List (Int × BurstOutcome)) :
    admittedOf ((t, BurstOutcome.rejected429 r) :: rest) = admittedOf rest := by
  simp [admittedOf]

/-- The limiter invariant: if the stored bucket agrees with the admitted
history on every window reachable from the (sorted) future timestamps, all
admitted history lies in the past, and every window already holds at most
`maxReq` admitted timestamps, then running the remaining requests keeps
every window at or below `maxReq`. -/
theorem rateLimitRun_bound (maxReq : Nat) (w : Int) :
    ∀ (times adm arr : List Int),
      List.Pairwise (· ≤ ·) times →
      (∀ u ∈ times, adm.filter (fun t => decide (u - w ≤ t)) =
        arr.filter (fun t => decide (u - w ≤ t))) →
      (∀ t ∈ adm, ∀ u ∈ times, t ≤ u) →
      (∀ x : Int, windowCount w x adm ≤ maxReq) →
      ∀ x : Int,
        windowCount w x (adm ++ admittedOf (rateLimitRun maxReq w arr times)) ≤
          maxReq := by
  intro times
  induction times with
  | nil =>
    intro adm arr _ _ _ hD x
    simpa [rateLimitRun, admittedOf, windowCount] using hD x
  | cons now ts ih =>
    intro adm arr hpw hB hC hD x
    have hpw_ts : List.Pairwise (· ≤ ·) ts := (List.pairwise_cons.mp hpw).2
    have hnow_le : ∀ u ∈ ts, now ≤ u := (List.pairwise_cons.mp hpw).1
    simp only [rateLimitRun, rateLimitStep]
    by_cases hrej : maxReq ≤ (arr.filter (fun t => decide (now - w ≤ t))).length
    · simp only [if_pos hrej, admittedOf_cons_rejected]
      refine ih adm arr hpw_ts ?_ ?_ hD x
      · intro u hu
        exact hB u (List.mem_cons_of_mem now hu)
      · intro t ht u hu
        exact hC t ht u (List.mem_cons_of_mem now hu)
    · simp only [if_neg hrej, admittedOf_cons_admitted]
      have hassoc : adm ++ now :: admittedOf (rateLimitRun maxReq w
          (arr.filter (fun t => decide (now - w ≤ t)) ++ [now]) ts) =
          (adm ++ [now]) ++ admittedOf (rateLimitRun maxReq w
            (arr.filter (fun t => decide (now - w ≤ t)) ++ [now]) ts) := by
        simp
      rw [hassoc]
      refine ih (adm ++ [now]) (arr.filter (fun t => decide (now - w ≤ t)) ++ [now])
        hpw_ts ?_ ?_ ?_ x
      · intro u hu
        rw [List.filter_append, List.filter_append]
        have hstep : (arr.filter (fun t => decide (now - w ≤ t))).filter
            (fun t => decide (u - w ≤ t)) = arr.filter (fun t => decide (u - w ≤ t)) := by
          rw [List.filter_filter]
          refine List.filter_congr ?_
          intro t _
          by_cases hu2 : u - w ≤ t
          · have h1 : now - w ≤ t := by
              have := hnow_le u hu
              omega
            simp [hu2, h1]
          · simp [hu2]
        rw [hstep, hB u (List.mem_cons_of_mem now hu)]
      · intro t ht u hu
        rcases List.mem_append.mp ht with ha | hb
        · exact hC t ha u (List.mem_cons_of_mem now hu)
        · rw [List.mem_singleton.mp hb]
          exact hnow_le u hu
      · intro y
        unfold windowCount
        rw [List.countP_append]
        by_cases hin : y ≤ now ∧ now ≤ y + w
        · have hcount : adm.countP (fun t => decide (y ≤ t ∧ t ≤ y + w)) ≤
              adm.countP (fun t => decide (now - w ≤ t)) := by
            refine List.countP_mono_left ?_
            intro t _ hwt
            rw [decide_eq_true_eq] at hwt ⊢
            omega
          have heq : adm.countP (fun t => decide (now - w ≤ t)) =
              (arr.filter (fun t => decide (now - w ≤ t))).length := by
            rw [List.countP_eq_length_filter, hB now (List.mem_cons_self now ts)]
          have hone : List.countP (fun t => decide (y ≤ t ∧ t ≤ y + w)) [now] ≤ 1 := by
            simp only [List.countP_cons, List.countP_nil]
            split <;> omega
          have hlt : (arr.filter (fun t => decide (now - w ≤ t))).length < maxReq := by
            omega
          omega
        · have hzero : List.countP (fun t => decide (y ≤ t ∧ t ≤ y + w)) [now] = 0 := by
            simp only [List.countP_cons, List.countP_nil]
            rw [decide_eq_false hin]
            simp
          have := hD y
          unfold windowCount at this
          omega

/-- Every request of a run is either admitted or answered 429 with a
nonnegative `retry_in_ms`. -/
theorem rateLimitRun_outcomes (maxReq : Nat) (w : Int) :
    ∀ (times arr : List Int) (p : Int × BurstOutcome),
      p ∈ rateLimitRun maxReq w arr times →
      p.2 = BurstOutcome.admitted ∨
        ∃ r, p.2 = BurstOutcome.rejected429 r ∧ 0 ≤ r := by
  intro times
  induction times with
  | nil =>
    intro arr p hp
    simp [rateLimitRun] at hp
  | cons now ts ih =>
    intro arr p hp
    simp only [rateLimitRun] at hp
    rcases List.mem_cons.mp hp with heq | htail
    · subst heq
      simp only [rateLimitStep]
      split
    
      · exact Or.inr ⟨_, rfl, le_max_right _ 0⟩
      · exact Or.inl rfl
    · exact ih _ p htail

/-- C7: from one identity, whatever the tier (the limiter runs before any
tier logic), at most `maxReq` requests are ever admitted within any closed
window of the configured length, and every non-admitted request is
answered 429 with a nonnegative `retry_in_ms` — for any time-ordered
request sequence against a fresh bucket. -/
theorem burst_limiter_bound (maxReq : Nat) (w : Int) (times : List Int)
    (hsorted : List.Pairwise (· ≤ ·) times) :
    (∀ x : Int,
      windowCount w x (admittedOf (rateLimitRun maxReq w [] times)) ≤ maxReq) ∧
    (∀ p ∈ rateLimitRun maxReq w [] times,
      p.2 = BurstOutcome.admitted ∨
        ∃ r, p.2 = BurstOutcome.rejected429 r ∧ 0 ≤ r) := by
  constructor
  · intro x
    have := rateLimitRun_bound maxReq w times [] [] hsorted
      (fun u _ => rfl) (fun t ht => absurd ht (List.not_mem_nil t))
      (fun y => by simp [windowCount]) x
    simpa using this
  · intro p hp
    exact rateLimitRun_outcomes maxReq w times [] p hp

/-- C7 witness: limit 2 in a 10ms window; of four simultaneous requests
exactly two are admitted and every window holds at most two. -/
theorem burst_limiter_bound_witness :
    List.Pairwise (· ≤ ·) ([0, 0, 0, 0] : List Int) ∧
    windowCount 10 0 (admittedOf (rateLimitRun 2 10 [] [0, 0, 0, 0])) ≤ 2 ∧
    admittedOf (rateLimitRun 2 10 [] [0, 0, 0, 0]) = [0, 0] :=
  ⟨by decide,
    (burst_limiter_bound 2 10 [0, 0, 0, 0] (by decide)).1 0,
    by decide⟩

/-- C2 (amended): the recoverer tries, in order, the fenced block (else the
whole text), the first-to-last brace slice, then the whole candidate; when
every attempt fails or yields no valid `emails` entries AND the raw text
does not itself parse as an object with truthy `subject` and `body` (the
handler's single-object rescue, which the original claim omits), the
response is the single synthetic draft whose subject is Draft and whose
body is the raw text. -/
theorem generate_fallback_draft (count : Nat) (content : List Char)
    (hA : recoveredEmailArray content = none ∨
      recoveredEmailArray content = some [])
    (hB : singleParse content = []) :
    generateEmails count content = [draftFallback content] := by
  unfold generateEmails
  unfold recoveredEmailArray at hA
  rcases hE : extractJson content with _ | p
  · simp [hB]
  · rw [hE] at hA
    replace hA :
        (if jsTruthy p = true then
          (match jsonGet p emailsKey with
            | some (Json.arr es) => some (es.filter validEmailEntry)
            | _ => none)
          else none) = none ∨
        (if jsTruthy p = true then
          (match jsonGet p emailsKey with
            | some (Json.arr es) => some (es.filter validEmailEntry)
            | _ => none)
          else none) = some [] := hA
    cases hT : jsTruthy p
    · simp [hT, hB]
    · rw [hT] at hA
      rcases hG : jsonGet p emailsKey with _ | v
      · simp [hT, hG, hB]
      · rw [hG] at hA
        cases v with
        | arr es =>
          rcases hA with hA | hA
          · simp at hA
          · simp at hA
            simp [hT, hG, hA]
            intro x hx hcontr
            exact absurd hcontr (by simp [hA x hx])
        | null => simp [hT, hG, hB]
        | bool b => simp [hT, hG, hB]
        | num n => simp [hT, hG, hB]
        | str s => simp [hT, hG, hB]
        | obj fs => simp [hT, hG, hB]

/-- C2 counterexample: on the raw text `{"subject":"A","body":"B"}` every
described attempt yields no `emails` array (the recovered object has none),
yet the handler answers with that object as a single draft — the
single-object rescue the claim omits — not with the synthetic Draft. -/
theorem generate_fallback_claim_counterexample :
    recoveredEmailArray ("\x7b\"subject\":\"A\",\"body\":\"B\"\x7d".data) = none ∧
    generateEmails 1 ("\x7b\"subject\":\"A\",\"body\":\"B\"\x7d".data) =
      [Json.obj [("subject".data, Json.str ("A".data)),
        ("body".data, Json.str ("B".data))]] ∧
    generateEmails 1 ("\x7b\"subject\":\"A\",\"body\":\"B\"\x7d".data) ≠
      [draftFallback ("\x7b\"subject\":\"A\",\"body\":\"B\"\x7d".data)] := by
  refine ⟨by decide, by decide, by decide⟩

/-- C2 witness: on unparsable text every attempt fails, the rescue fails,
and the response is the synthetic draft with the raw text as body. -/
theorem generate_fallback_draft_witness :
    recoveredEmailArray ("hello".data) = none ∧
    singleParse ("hello".data) = [] ∧
    generateEmails 1 ("hello".data) = [draftFallback ("hello".data)] :=
  ⟨by decide, by decide,
    generate_fallback_draft 1 ("hello".data) (Or.inl (by decide)) (by decide)⟩

/-! ### Lemmas for the token codec (C10) -/

theorem b64ChVal_b64Ch : ∀ n, n < 64 → b64ChVal (b64Ch n) = some n := by
  decide

theorem b64Ch_ne_dot : ∀ n, n < 64 → b64Ch n ≠ '.' := by
  decide

/-- Decoding inverts encoding on byte lists. -/
theorem b64url_roundtrip :
    ∀ (bs : List Nat), (∀ b ∈ bs, b < 256) →
      b64urlDecode (b64urlEncode bs) = some bs
  | [], _ => rfl
  | [b1], h => by
    have hb : b1 < 256 := h b1 (by simp)
    have h1 := b64ChVal_b64Ch (b1 / 4) (by omega)
    have h2 := b64ChVal_b64Ch (b1 % 4 * 16) (by omega)
    have harith : b1 / 4 * 4 + b1 % 4 * 16 / 16 = b1 := by omega
    simp only [b64urlEncode, b64urlDecode, h1, h2, harith]
  | [b1, b2], h => by
    have hb1 : b1 < 256 := h b1 (by simp)
    have hb2 : b2 < 256 := h b2 (by simp)
    have h1 := b64ChVal_b64Ch (b1 / 4) (by omega)
    have h2 := b64ChVal_b64Ch (b1 % 4 * 16 + b2 / 16) (by omega)
    have h3 := b64ChVal_b64Ch (b2 % 16 * 4) (by omega)
    have ha1 : b1 / 4 * 4 + (b1 % 4 * 16 + b2 / 16) / 16 = b1 := by omega
    have ha2 : (b1 % 4 * 16 + b2 / 16) % 16 * 16 + b2 % 16 * 4 / 4 = b2 := by omega
    simp only [b64urlEncode, b64urlDecode, h1, h2, h3, ha1, ha2]
  | b1 :: b2 :: b3 :: rest, h => by
    have hb1 : b1 < 256 := h b1 (by simp)
    have hb2 : b2 < 256 := h b2 (by simp)
    have hb3 : b3 < 256 := h b3 (by simp)
    have hrest : ∀ b ∈ rest, b < 256 := fun b hb => h b (by simp [hb])
    have hIH := b64url_roundtrip rest hrest
    have h1 := b64ChVal_b64Ch (b1 / 4) (by omega)
    have h2 := b64ChVal_b64Ch (b1 % 4 * 16 + b2 / 16) (by omega)
    have h3 := b64ChVal_b64Ch (b2 % 16 * 4 + b3 / 64) (by omega)
    have h4 := b64ChVal_b64Ch (b3 % 64) (by omega)
    have ha1 : b1 / 4 * 4 + (b1 % 4 * 16 + b2 / 16) / 16 = b1 := by omega
    have ha2 : (b1 % 4 * 16 + b2 / 16) % 16 * 16 + (b2 % 16 * 4 + b3 / 64) / 4 = b2 := by
      omega
    have ha3 : (b2 % 16 * 4 + b3 / 64) % 4 * 64 + b3 % 64 = b3 := by omega
    cases rest with
    | nil =>
      simp only [b64urlEncode, b64urlDecode, h1, h2, h3, h4, ha1, ha2, ha3, hIH]
    | cons b4 rest2 =>
      simp only [b64urlEncode] at hIH ⊢
      simp only [b64urlDecode, h1, h2, h3, h4, ha1, ha2, ha3]
      rw [hIH]

/-- The encoding never contains a dot. -/
theorem b64urlEncode_ne_dot :
    ∀ (bs : List Nat), (∀ b ∈ bs, b < 256) →
      ∀ c ∈ b64urlEncode bs, c ≠ '.'
  | [], _ => by simp [b64urlEncode]
  | [b1], h => by
    have hb : b1 < 256 := h b1 (by simp)
    intro c hc
    simp only [b64urlEncode, List.mem_cons, List.mem_singleton] at hc
    rcases hc with rfl | rfl | hcontr
    · exact b64Ch_ne_dot _ (by omega)
    · exact b64Ch_ne_dot _ (by omega)
    · exact absurd hcontr (List.not_mem_nil c)
  | [b1, b2], h => by
    have hb1 : b1 < 256 := h b1 (by simp)
    have hb2 : b2 < 256 := h b2 (by simp)
    intro c hc
    simp only [b64urlEncode, List.mem_cons, List.mem_singleton] at hc
    rcases hc with rfl | rfl | rfl | hcontr
    · exact b64Ch_ne_dot _ (by omega)
    · exact b64Ch_ne_dot _ (by omega)
    · exact b64Ch_ne_dot _ (by omega)
    · exact absurd hcontr (List.not_mem_nil c)
  | b1 :: b2 :: b3 :: rest, h => by
    have hb1 : b1 < 256 := h b1 (by simp)
    have hb2 : b2 < 256 := h b2 (by simp)
    have hb3 : b3 < 256 := h b3 (by simp)
    have hrest : ∀ b ∈ rest, b < 256 := fun b hb => h b (by simp [hb])
    intro c hc
    simp only [b64urlEncode, List.mem_cons] at hc
    rcases hc with rfl | rfl | rfl | rfl | htail
    · exact b64Ch_ne_dot _ (by omega)
    · exact b64Ch_ne_dot _ (by omega)
    · exact b64Ch_ne_dot _ (by omega)
    · exact b64Ch_ne_dot _ (by omega)
    · exact b64urlEncode_ne_dot rest hrest c htail

/-- Text-to-bytes-to-text is the identity (the model codes ASCII text
one byte per character). -/
theorem bytesToChars_charsToBytes (s : List Char) :
    bytesToChars (charsToBytes s) = s := by
  induction s with
  | nil => rfl
  | cons c rest ih =>
    simp only [bytesToChars, charsToBytes, List.map_cons] at ih ⊢
    rw [Char.ofNat_toNat, ih]

theorem takeToDot_of_ne (l : List Char) (h : ∀ c ∈ l, c ≠ '.') :
    takeToDot l = (l, none) := by
  induction l with
  | nil => rfl
  | cons c rest ih =>
    have hc : c ≠ '.' := h c (by simp)
    simp only [takeToDot, if_neg hc]
    rw [ih (fun x hx => h x (by simp [hx]))]

theorem takeToDot_append (l : List Char) (h : ∀ c ∈ l, c ≠ '.') (r : List Char) :
    takeToDot (l ++ '.' :: r) = (l, some r) := by
  induction l with
  | nil => simp [takeToDot]
  | cons c rest ih =>
    have hc : c ≠ '.' := h c (by simp)
    simp only [List.cons_append, takeToDot, if_neg hc, List.append_eq]
    rw [ih (fun x hx => h x (by simp [hx]))]

theorem digitCh_spec : ∀ k, k < 10 →
    isDigitCh (Char.ofNat ('0'.toNat + k)) = true ∧
    digitVal (Char.ofNat ('0'.toNat + k)) = k ∧
    jsonWs (Char.ofNat ('0'.toNat + k)) = false := by
  decide

theorem digitCh_ne_zero : ∀ k, k < 10 → k ≠ 0 → Char.ofNat ('0'.toNat + k) ≠ '0' := by
  decide

theorem digit_ne_dash (c : Char) (h : isDigitCh c = true) : c ≠ '-' := by
  intro he
  subst he
  exact absurd h (by decide)

/-- Fuel does not matter once it bounds the number. -/
theorem natCharsF_congr : ∀ (f1 f2 n : Nat) (acc : List Char), n < f1 → n < f2 →
    natCharsF f1 n acc = natCharsF f2 n acc := by
  intro f1
  induction f1 with
  | zero =>
    intro f2 n acc h1 _
    omega
  | succ f ih =>
    intro f2 n acc h1 h2
    cases f2 with
    | zero => omega
    | succ g =>
      by_cases h : n < 10
      · simp [natCharsF, h]
      · simp only [natCharsF, if_neg h]
        exact ih g (n / 10) _ (by omega) (by omega)

theorem natChars_lt (n : Nat) (h : n < 10) (acc : List Char) :
    natChars n acc = Char.ofNat ('0'.toNat + n) :: acc := by
  simp [natChars, natCharsF, h]

theorem natChars_ge (n : Nat) (h : ¬n < 10) (acc : List Char) :
    natChars n acc = natChars (n / 10) (Char.ofNat ('0'.toNat + n % 10) :: acc) := by
  simp only [natChars, natCharsF, if_neg h]
  exact natCharsF_congr n (n / 10 + 1) (n / 10) _ (by omega) (by omega)

/-- The accumulator of `natChars` rides along on the right. -/
theorem natChars_acc : ∀ n acc, natChars n acc = natChars n [] ++ acc := by
  intro n
  induction n using Nat.strong_induction_on with
  | _ n ih =>
    intro acc
    by_cases h : n < 10
    · rw [natChars_lt n h acc, natChars_lt n h []]
      simp
    · rw [natChars_ge n h acc, natChars_ge n h []]
      rw [ih (n / 10) (by omega) (Char.ofNat ('0'.toNat + n % 10) :: acc),
        ih (n / 10) (by omega) [Char.ofNat ('0'.toNat + n % 10)]]
      simp

theorem natChars_digits : ∀ n, ∀ c ∈ natChars n [], isDigitCh c = true := by
  intro n
  induction n using Nat.strong_induction_on with
  | _ n ih =>
    intro c hc
    by_cases h : n < 10
    · rw [natChars_lt n h []] at hc
      rcases List.mem_singleton.mp hc with rfl
      exact (digitCh_spec n h).1
    · rw [natChars_ge n h [], natChars_acc] at hc
      rcases List.mem_append.mp hc with h1 | h2
      · exact ih (n / 10) (by omega) c h1
      · rcases List.mem_singleton.mp h2 with rfl
        exact (digitCh_spec (n % 10) (by omega)).1

/-- The decimal form is nonempty, starts with a digit, and (for a positive
number) not with a zero. -/
theorem natChars_cons : ∀ n, ∃ c t, natChars n [] = c :: t ∧
    isDigitCh c = true ∧ (0 < n → c ≠ '0') := by
  intro n
  induction n using Nat.strong_induction_on with
  | _ n ih =>
    by_cases h : n < 10
    · refine ⟨Char.ofNat ('0'.toNat + n), [], natChars_lt n h [],
        (digitCh_spec n h).1, ?_⟩
      intro hpos
      exact digitCh_ne_zero n h (by omega)
    · obtain ⟨c, t, heq, hdig, hnz⟩ := ih (n / 10) (by omega)
      refine ⟨c, t ++ [Char.ofNat ('0'.toNat + n % 10)], ?_, hdig,
        fun _ => hnz (by omega)⟩
      rw [natChars_ge n h [], natChars_acc, heq]
      simp

theorem foldl_natChars : ∀ n,
    (natChars n []).foldl (fun acc c => acc * 10 + digitVal c) 0 = n := by
  intro n
  induction n using Nat.strong_induction_on with
  | _ n ih =>
    by_cases h : n < 10
    · rw [natChars_lt n h []]
      simp only [List.foldl_cons, List.foldl_nil]
      rw [(digitCh_spec n h).2.1]
      omega
    · rw [natChars_ge n h [], natChars_acc, List.foldl_append, ih (n / 10) (by omega)]
      simp only [List.foldl_cons, List.foldl_nil]
      rw [(digitCh_spec (n % 10) (by omega)).2.1]
      omega

theorem digitRun_stop (a : Nat) (rest : List Char) (h : digitStart rest = false) :
    digitRun a rest = (a, rest) := by
  cases rest with
  | nil => rfl
  | cons c r =>
    simp only [digitStart] at h
    simp [digitRun, h]

theorem digitRun_digits : ∀ (ds : List Char), (∀ c ∈ ds, isDigitCh c = true) →
    ∀ (a : Nat) (rest : List Char), digitStart rest = false →
      digitRun a (ds ++ rest) =
        (ds.foldl (fun acc c => acc * 10 + digitVal c) a, rest) := by
  intro ds
  induction ds with
  | nil =>
    intro _ a rest hrest
    simpa using digitRun_stop a rest hrest
  | cons d t ih =>
    intro hall a rest hrest
    have hd : isDigitCh d = true := hall d (by simp)
    simp only [List.cons_append, digitRun, hd, if_pos rfl, List.foldl_cons]
    exact ih (fun c hc => hall c (by simp [hc])) _ rest hrest

theorem parseNatNum_natChars (n : Nat) (rest : List Char)
    (hrest : digitStart rest = false) :
    parseNatNum (natChars n [] ++ rest) = some (n, rest) := by
  by_cases h0 : n = 0
  · subst h0
    have hz : natChars 0 [] = ['0'] := by
      rw [natChars_lt 0 (by omega) []]
      decide
    rw [hz]
    simp [parseNatNum, hrest]
  · obtain ⟨c, t, heq, hdig, hnz⟩ := natChars_cons n
    have hne0 : c ≠ '0' := hnz (by omega)
    have hall := natChars_digits n
    have hfold := foldl_natChars n
    rw [heq] at hall hfold
    rw [heq]
    simp only [List.cons_append, parseNatNum, if_neg hne0, hdig, if_pos rfl]
    rw [digitRun_digits t (fun x hx => hall x (by simp [hx])) (digitVal c) rest hrest]
    simp only [List.foldl_cons] at hfold
    rw [Nat.zero_mul, Nat.zero_add] at hfold
    simp [hfold]

theorem parseIntNum_intChars (i : Int) (rest : List Char)
    (hrest : digitStart rest = false) :
    parseIntNum (intChars i ++ rest) = some (i, rest) := by
  by_cases hneg : i < 0
  · unfold intChars
    rw [if_pos hneg]
    have hp := parseNatNum_natChars i.natAbs rest hrest
    have h2 : -((i.natAbs : Nat) : Int) = i := by omega
    simp [parseIntNum, hp, h2]
    rw [abs_of_neg hneg]
    ring
  · unfold intChars
    rw [if_neg hneg]
    obtain ⟨c, t, heq, hdig, _⟩ := natChars_cons i.natAbs
    rw [heq]
    simp only [List.cons_append, parseIntNum, if_neg (digit_ne_dash c hdig)]
    rw [← List.cons_append, ← heq]
    have hp := parseNatNum_natChars i.natAbs rest hrest
    simp [hp]
    omega

theorem escapeCh_safe (c : Char) (h : safeChar c = true) : escapeCh c = [c] := by
  have hq : c ≠ '"' := fun he => absurd (he ▸ h) (by decide)
  have hb : c ≠ '\\' := fun he => absurd (he ▸ h) (by decide)
  have hn : c ≠ '\n' := fun he => absurd (he ▸ h) (by decide)
  have hr : c ≠ '\r' := fun he => absurd (he ▸ h) (by decide)
  have ht : c ≠ '\t' := fun he => absurd (he ▸ h) (by decide)
  have hge : ¬(c.toNat < 32) := by
    simp only [safeChar, Bool.and_eq_true, decide_eq_true_eq] at h
    omega
  unfold escapeCh
  rw [if_neg hq, if_neg hb, if_neg hn, if_neg hr, if_neg ht, if_neg hge]

theorem flatMap_escape_safe (s : List Char) (h : ∀ c ∈ s, safeChar c = true) :
    s.flatMap escapeCh = s := by
  induction s with
  | nil => rfl
  | cons c t ih =>
    rw [List.flatMap_cons, escapeCh_safe c (h c (by simp)),
      ih (fun x hx => h x (by simp [hx]))]
    rfl

theorem printStr_safe (s : List Char) (h : ∀ c ∈ s, safeChar c = true) :
    printStr s = '"' :: (s ++ ['"']) := by
  unfold printStr
  rw [flatMap_escape_safe s h]

theorem parseStrBody_safe (s : List Char) (h : ∀ c ∈ s, safeChar c = true)
    (rest : List Char) :
    parseStrBody (s ++ '"' :: rest) = some (s, rest) := by
  induction s with
  | nil =>
    rw [List.nil_append, parseStrBody.eq_def]
    simp
  | cons c t ih =>
    have hq : c ≠ '"' := fun he => absurd (he ▸ h c (by simp)) (by decide)
    have hb : c ≠ '\\' := fun he => absurd (he ▸ h c (by simp)) (by decide)
    rw [List.cons_append, parseStrBody.eq_def]
    simp only [if_neg hq, if_neg hb]
    rw [ih (fun x hx => h x (by simp [hx]))]

/-- Digits are none of the parser's dispatch characters. -/
theorem digit_not_key (c : Char) (h : isDigitCh c = true) :
    c ≠ 'n' ∧ c ≠ 't' ∧ c ≠ 'f' ∧ c ≠ '"' ∧ c ≠ '[' ∧ c ≠ '{' ∧
    jsonWs c = false ∧ c ≠ ']' ∧ c ≠ '}' := by
  have hws : jsonWs c = false := by
    cases hc : jsonWs c
    · rfl
    · simp only [jsonWs, Bool.or_eq_true, decide_eq_true_eq] at hc
      rcases hc with ((rfl | rfl) | rfl) | rfl <;> exact absurd h (by decide)
  refine ⟨?_, ?_, ?_, ?_, ?_, ?_, hws, ?_, ?_⟩ <;>
    exact fun he => absurd (he ▸ h) (by decide)

/-- The first character of a printed value is never whitespace nor a
closing bracket. -/
theorem printJson_head (v : Json) :
    ∃ c t, printJson v = c :: t ∧ jsonWs c = false ∧ c ≠ ']' ∧ c ≠ '}' := by
  cases v with
  | null => refine ⟨'n', _, rfl, ?_, ?_, ?_⟩ <;> decide
  | bool b =>
    cases b
    · refine ⟨'f', _, rfl, ?_, ?_, ?_⟩ <;> decide
    · refine ⟨'t', _, rfl, ?_, ?_, ?_⟩ <;> decide
  | num n =>
    by_cases hneg : n < 0
    · refine ⟨'-', natChars n.natAbs [], ?_, by decide, by decide, by decide⟩
      simp [printJson, intChars, hneg]
    · obtain ⟨c, t, heq, hdig, _⟩ := natChars_cons n.natAbs
      refine ⟨c, t, ?_, ?_, ?_, ?_⟩
      · simp [printJson, intChars, hneg, heq]
      · exact (digit_not_key c hdig).2.2.2.2.2.2.1
      · exact (digit_not_key c hdig).2.2.2.2.2.2.2.1
      · exact (digit_not_key c hdig).2.2.2.2.2.2.2.2
  | str s => refine ⟨'"', _, rfl, ?_, ?_, ?_⟩ <;> decide
  | arr es => refine ⟨'[', _, rfl, ?_, ?_, ?_⟩ <;> decide
  | obj fs => refine ⟨'{', _, rfl, ?_, ?_, ?_⟩ <;> decide

theorem skipJsonWs_cons (c : Char) (l : List Char) (h : jsonWs c = false) :
    skipJsonWs (c :: l) = c :: l := by
  simp [skipJsonWs, h]

theorem jfuel_pos (v : Json) : 1 ≤ jfuel v := by
  cases v with
  | arr es => cases es <;> simp [jfuel]
  | obj fs => cases fs <;> simp [jfuel]
  | null => simp [jfuel]
  | bool b => simp [jfuel]
  | num n => simp [jfuel]
  | str s => simp [jfuel]

theorem parsePrint_aux : ∀ bound : Nat,
    (∀ (v : Json) (rest : List Char) (f : Nat), jfuel v ≤ bound → jsonSafe v = true →
      jfuel v ≤ f → digitStart rest = false →
      parseVal f (printJson v ++ rest) = some (v, rest)) ∧
    (∀ (es : List Json) (rest : List Char) (f : Nat), elemsFuel es ≤ bound → es ≠ [] →
      jsonSafeList es = true → elemsFuel es ≤ f →
      parseItems f (printItems es ++ ']' :: rest) = some (es, rest)) ∧
    (∀ (fs : List (List Char × Json)) (rest : List Char) (f : Nat),
      pairsFuel fs ≤ bound → fs ≠ [] → jsonSafeFields fs = true → pairsFuel fs ≤ f →
      parsePairs f (printPairs fs ++ '}' :: rest) = some (fs, rest)) := by
  intro bound
  induction bound using Nat.strong_induction_on with
  | _ bound ih =>
    refine ⟨?_, ?_, ?_⟩
    · intro v rest f hbound hsafe hf hrest
      obtain ⟨f1, rfl⟩ : ∃ f1, f = f1 + 1 :=
        ⟨f - 1, by have := jfuel_pos v; omega⟩
      cases v with
      | null => rfl
      | bool b => cases b <;> rfl
      | str s =>
        have hsafe' : ∀ c ∈ s, safeChar c = true := by
          simp only [jsonSafe] at hsafe
          exact fun c hc => List.all_eq_true.mp hsafe c hc
        have hpr : printJson (Json.str s) = '"' :: (s ++ ['"']) := printStr_safe s hsafe'
        rw [hpr]
        simp only [List.cons_append, parseVal,
          skipJsonWs_cons '"' _ (by decide), if_neg (by decide : ¬('"' : Char) = 'n'),
          if_neg (by decide : ¬('"' : Char) = 't'),
          if_neg (by decide : ¬('"' : Char) = 'f'), if_pos rfl]
        rw [List.append_assoc, List.singleton_append, parseStrBody_safe s hsafe' rest]
        simp
      | num n =>
        have hpr : printJson (Json.num n) = intChars n := rfl
        rw [hpr]
        by_cases hneg : n < 0
        · have hic : intChars n = '-' :: natChars n.natAbs [] := by
            simp [intChars, hneg]
          rw [hic]
          simp only [List.cons_append, parseVal,
            skipJsonWs_cons '-' _ (by decide), if_neg (by decide : ¬('-' : Char) = 'n'),
            if_neg (by decide : ¬('-' : Char) = 't'),
            if_neg (by decide : ¬('-' : Char) = 'f'),
            if_neg (by decide : ¬('-' : Char) = '"'),
            if_neg (by decide : ¬('-' : Char) = '['),
            if_neg (by decide : ¬('-' : Char) = '{')]
          rw [← List.cons_append, ← hic, parseIntNum_intChars n rest hrest]
        · obtain ⟨c, t, heq, hdig, _⟩ := natChars_cons n.natAbs
          have hfacts := digit_not_key c hdig
          have hic : intChars n = c :: t := by
            simp only [intChars, if_neg hneg]
            exact heq
          rw [hic]
          simp only [List.cons_append, parseVal, skipJsonWs_cons c _ hfacts.2.2.2.2.2.2.1,
            if_neg hfacts.1, if_neg hfacts.2.1, if_neg hfacts.2.2.1,
            if_neg hfacts.2.2.2.1, if_neg hfacts.2.2.2.2.1, if_neg hfacts.2.2.2.2.2.1]
          rw [← List.cons_append, ← hic, parseIntNum_intChars n rest hrest]
      | arr es =>
        cases es with
        | nil => rfl
        | cons e es2 =>
          have hblt : bound - 1 < bound := by
            have := jfuel_pos (Json.arr (e :: es2))
            omega
          have hbound1 : elemsFuel (e :: es2) ≤ bound - 1 := by
            simp only [jfuel] at hbound
            omega
          have hf1 : elemsFuel (e :: es2) ≤ f1 := by
            simp only [jfuel] at hf
            omega
          have hsafeL : jsonSafeList (e :: es2) = true := by
            simpa [jsonSafe] using hsafe
          have hitems := (ih (bound - 1) hblt).2.1 (e :: es2) rest f1 hbound1
            (by simp) hsafeL hf1
          obtain ⟨c0, t0, hpe, hws0, hne0, _⟩ := printJson_head e
          obtain ⟨S, hS⟩ : ∃ S, printItems (e :: es2) = printJson e ++ S := by
            cases es2 with
            | nil => exact ⟨[], by simp [printItems]⟩
            | cons x xs => exact ⟨',' :: printItems (x :: xs), rfl⟩
          have hshape : printItems (e :: es2) ++ (']' :: rest) =
              c0 :: (t0 ++ (S ++ ']' :: rest)) := by
            rw [hS, hpe]
            simp
          have hpr : printJson (Json.arr (e :: es2)) ++ rest =
              '[' :: (printItems (e :: es2) ++ (']' :: rest)) := by
            simp [printJson]
          rw [hpr]
          simp only [parseVal, skipJsonWs_cons '[' _ (by decide),
            if_neg (by decide : ¬('[' : Char) = 'n'),
            if_neg (by decide : ¬('[' : Char) = 't'),
            if_neg (by decide : ¬('[' : Char) = 'f'),
            if_neg (by decide : ¬('[' : Char) = '"'), if_pos rfl]
          rw [hshape, skipJsonWs_cons c0 _ hws0]
          simp only [if_neg hne0]
          rw [← hshape, hitems]
          simp
      | obj fs =>
        cases fs with
        | nil => rfl
        | cons kv fs2 =>
          have hblt : bound - 1 < bound := by
            have := jfuel_pos (Json.obj (kv :: fs2))
            omega
          have hbound1 : pairsFuel (kv :: fs2) ≤ bound - 1 := by
            simp only [jfuel] at hbound
            omega
          have hf1 : pairsFuel (kv :: fs2) ≤ f1 := by
            simp only [jfuel] at hf
            omega
          have hsafeF : jsonSafeFields (kv :: fs2) = true := by
            simpa [jsonSafe] using hsafe
          have hpairs := (ih (bound - 1) hblt).2.2 (kv :: fs2) rest f1 hbound1
            (by simp) hsafeF hf1
          have hT : ∃ T, printPairs (kv :: fs2) = '"' :: T := by
            cases fs2 with
            | nil =>
              exact ⟨kv.1.flatMap escapeCh ++ '"' :: ':' :: printJson kv.2,
                by simp [printPairs, printStr]⟩
            | cons x xs =>
              exact ⟨kv.1.flatMap escapeCh ++ '"' :: ':' ::
                (printJson kv.2 ++ ',' :: printPairs (x :: xs)),
                by simp [printPairs, printStr]⟩
          obtain ⟨T, hT⟩ := hT
          have hshape : printPairs (kv :: fs2) ++ ('}' :: rest) =
              '"' :: (T ++ '}' :: rest) := by
            rw [hT]
            simp
          have hpr : printJson (Json.obj (kv :: fs2)) ++ rest =
              '{' :: (printPairs (kv :: fs2) ++ ('}' :: rest)) := by
            simp [printJson]
          rw [hpr]
          simp only [parseVal, skipJsonWs_cons '{' _ (by decide),
            if_neg (by decide : ¬('{' : Char) = 'n'),
            if_neg (by decide : ¬('{' : Char) = 't'),
            if_neg (by decide : ¬('{' : Char) = 'f'),
            if_neg (by decide : ¬('{' : Char) = '"'),
            if_neg (by decide : ¬('{' : Char) = '['), if_pos rfl]
          rw [hshape, skipJsonWs_cons '"' _ (by decide)]
          simp only [if_neg (by decide : ¬('"' : Char) = '}')]
          rw [← hshape, hpairs]
          simp
    · intro es rest f hbound hne hsafeL hf
      cases es with
      | nil => exact absurd rfl hne
      | cons e es2 =>
        obtain ⟨f2, rfl⟩ : ∃ f2, f = f2 + 1 :=
          ⟨f - 1, by simp only [elemsFuel] at hf; omega⟩
        have hblt : bound - 1 < bound := by
          simp only [elemsFuel] at hbound
          omega
        have hje : jfuel e ≤ f2 := by
          simp only [elemsFuel] at hf
          omega
        have hjeb : jfuel e ≤ bound - 1 := by
          simp only [elemsFuel] at hbound
          omega
        have hsafes : jsonSafe e = true ∧ jsonSafeList es2 = true := by
          simpa [jsonSafeList, Bool.and_eq_true] using hsafeL
        cases es2 with
        | nil =>
          have hval := (ih (bound - 1) hblt).1 e (']' :: rest) f2 hjeb hsafes.1 hje
            rfl
          have hpi : printItems [e] ++ (']' :: rest) = printJson e ++ (']' :: rest) := by
            simp [printItems]
          simp only [parseItems, hpi, hval, skipJsonWs_cons ']' _ (by decide)]
        | cons x xs =>
          have helts : elemsFuel (x :: xs) ≤ f2 := by
            simp only [elemsFuel] at hf ⊢
            omega
          have heltb : elemsFuel (x :: xs) ≤ bound - 1 := by
            simp only [elemsFuel] at hbound ⊢
            omega
          have htail := (ih (bound - 1) hblt).2.1 (x :: xs) rest f2 heltb (by simp)
            hsafes.2 helts
          have hval := (ih (bound - 1) hblt).1 e
            (',' :: (printItems (x :: xs) ++ ']' :: rest)) f2 hjeb hsafes.1 hje
            rfl
          have hpi : printItems (e :: x :: xs) ++ (']' :: rest) =
              printJson e ++ (',' :: (printItems (x :: xs) ++ ']' :: rest)) := by
            simp [printItems]
          simp only [parseItems, hpi, hval, skipJsonWs_cons ',' _ (by decide), htail]
    · intro fs rest f hbound hne hsafeF hf
      cases fs with
      | nil => exact absurd rfl hne
      | cons kv fs2 =>
        obtain ⟨f3, rfl⟩ : ∃ f3, f = f3 + 1 :=
          ⟨f - 1, by simp only [pairsFuel] at hf; omega⟩
        have hblt : bound - 1 < bound := by
          simp only [pairsFuel] at hbound
          omega
        have hjv : jfuel kv.2 ≤ f3 := by
          simp only [pairsFuel] at hf
          omega
        have hjvb : jfuel kv.2 ≤ bound - 1 := by
          simp only [pairsFuel] at hbound
          omega
        have hsafes : kv.1.all safeChar = true ∧ jsonSafe kv.2 = true ∧
            jsonSafeFields fs2 = true := by
          simpa [jsonSafeFields, Bool.and_eq_true, and_assoc] using hsafeF
        have hkey : ∀ c ∈ kv.1, safeChar c = true :=
          fun c hc => List.all_eq_true.mp hsafes.1 c hc
        cases fs2 with
        | nil =>
          have hval := (ih (bound - 1) hblt).1 kv.2 ('}' :: rest) f3 hjvb
            hsafes.2.1 hjv rfl
          have hpp : printPairs [kv] ++ ('}' :: rest) =
              '"' :: (kv.1 ++ ('"' :: (':' :: (printJson kv.2 ++ '}' :: rest)))) := by
            simp only [printPairs, printStr_safe kv.1 hkey]
            simp
          rw [hpp]
          simp only [parsePairs, skipJsonWs_cons '"' _ (by decide),
            parseStrBody_safe kv.1 hkey, skipJsonWs_cons ':' _ (by decide), hval,
            skipJsonWs_cons '}' _ (by decide)]
        | cons x xs =>
          have hpfs : pairsFuel (x :: xs) ≤ f3 := by
            simp only [pairsFuel] at hf ⊢
            omega
          have hpfb : pairsFuel (x :: xs) ≤ bound - 1 := by
            simp only [pairsFuel] at hbound ⊢
            omega
          have htail := (ih (bound - 1) hblt).2.2 (x :: xs) rest f3 hpfb (by simp)
            hsafes.2.2 hpfs
          have hval := (ih (bound - 1) hblt).1 kv.2
            (',' :: (printPairs (x :: xs) ++ '}' :: rest)) f3 hjvb hsafes.2.1 hjv
            rfl
          have hpp : printPairs (kv :: x :: xs) ++ ('}' :: rest) =
              '"' :: (kv.1 ++ ('"' :: (':' :: (printJson kv.2 ++
                (',' :: (printPairs (x :: xs) ++ '}' :: rest)))))) := by
            simp only [printPairs, printStr_safe kv.1 hkey]
            simp
          rw [hpp]
          simp only [parsePairs, skipJsonWs_cons '"' _ (by decide),
            parseStrBody_safe kv.1 hkey, skipJsonWs_cons ':' _ (by decide), hval,
            skipJsonWs_cons ',' _ (by decide), htail]

theorem safeChar_toNat (c : Char) (h : safeChar c = true) : c.toNat < 256 := by
  simp only [safeChar, Bool.and_eq_true, decide_eq_true_eq] at h
  omega

theorem isDigitCh_toNat (c : Char) (h : isDigitCh c = true) : c.toNat < 256 := by
  simp only [isDigitCh, Bool.and_eq_true, decide_eq_true_eq] at h
  have h3 : c.val.toNat ≤ ('9' : Char).val.toNat := h.2
  have h4 : ('9' : Char).val.toNat = 57 := rfl
  simp only [Char.toNat]
  omega

theorem natChars_toNat (n : Nat) : ∀ c ∈ natChars n [], c.toNat < 256 :=
  fun c hc => isDigitCh_toNat c (natChars_digits n c hc)

/-- The parser fuel a value needs is bounded by its printed length. -/
theorem jfuel_le_print : ∀ bound : Nat,
    (∀ v : Json, jfuel v ≤ bound → jfuel v ≤ (printJson v).length) ∧
    (∀ es : List Json, elemsFuel es ≤ bound →
      elemsFuel es ≤ (printItems es).length + 1) ∧
    (∀ fs : List (List Char × Json), pairsFuel fs ≤ bound →
      pairsFuel fs ≤ (printPairs fs).length + 1) := by
  intro bound
  induction bound using Nat.strong_induction_on with
  | _ bound ih =>
    refine ⟨?_, ?_, ?_⟩
    · intro v hbound
      cases v with
      | null => simp [jfuel, printJson]
      | bool b => cases b <;> simp [jfuel, printJson]
      | num n =>
        obtain ⟨c, t, heq, _, _⟩ := natChars_cons n.natAbs
        simp only [jfuel, printJson, intChars]
        by_cases hneg : n < 0
        · rw [if_pos hneg]
          simp only [List.length_cons]
          omega
        · rw [if_neg hneg, heq]
          simp only [List.length_cons]
          omega
      | str s =>
        simp only [jfuel, printJson, printStr, List.length_cons]
        omega
      | arr es =>
        cases es with
        | nil => simp [jfuel, printJson, printItems]
        | cons e es2 =>
          have hblt : bound - 1 < bound := by
            simp only [jfuel] at hbound
            omega
          have h1 : elemsFuel (e :: es2) ≤ bound - 1 := by
            simp only [jfuel] at hbound
            omega
          have h2 := (ih (bound - 1) hblt).2.1 (e :: es2) h1
          simp only [jfuel, printJson, List.length_cons, List.length_append]
          simp only [List.length_cons, List.length_nil] at h2 ⊢
          omega
      | obj fs =>
        cases fs with
        | nil => simp [jfuel, printJson, printPairs]
        | cons kv fs2 =>
          have hblt : bound - 1 < bound := by
            simp only [jfuel] at hbound
            omega
          have h1 : pairsFuel (kv :: fs2) ≤ bound - 1 := by
            simp only [jfuel] at hbound
            omega
          have h2 := (ih (bound - 1) hblt).2.2 (kv :: fs2) h1
          simp only [jfuel, printJson, List.length_cons, List.length_append]
          simp only [List.length_cons, List.length_nil] at h2 ⊢
          omega
    · intro es hbound
      cases es with
      | nil => simp [elemsFuel]
      | cons e es2 =>
        have hblt : bound - 1 < bound := by
          simp only [elemsFuel] at hbound
          omega
        have hje : jfuel e ≤ bound - 1 := by
          simp only [elemsFuel] at hbound
          omega
        have h1 := (ih (bound - 1) hblt).1 e hje
        cases es2 with
        | nil =>
          simp only [elemsFuel, printItems]
          omega
        | cons x xs =>
          have hte : elemsFuel (x :: xs) ≤ bound - 1 := by
            simp only [elemsFuel] at hbound ⊢
            omega
          have h2 := (ih (bound - 1) hblt).2.1 (x :: xs) hte
          simp only [elemsFuel, printItems, List.length_append, List.length_cons] at h2 ⊢
          omega
    · intro fs hbound
      cases fs with
      | nil => simp [pairsFuel]
      | cons kv fs2 =>
        have hblt : bound - 1 < bound := by
          simp only [pairsFuel] at hbound
          omega
        have hjv : jfuel kv.2 ≤ bound - 1 := by
          simp only [pairsFuel] at hbound
          omega
        have h1 := (ih (bound - 1) hblt).1 kv.2 hjv
        cases fs2 with
        | nil =>
          simp only [pairsFuel, printPairs, printStr, List.length_append,
            List.length_cons]
          omega
        | cons x xs =>
          have htp : pairsFuel (x :: xs) ≤ bound - 1 := by
            simp only [pairsFuel] at hbound ⊢
            omega
          have h2 := (ih (bound - 1) hblt).2.2 (x :: xs) htp
          simp only [pairsFuel, printPairs, printStr, List.length_append,
            List.length_cons] at h2 ⊢
          omega

/-- Every character of the printed form of a safe value is one ASCII byte. -/
theorem printJson_ascii : ∀ bound : Nat,
    (∀ v : Json, jfuel v ≤ bound → jsonSafe v = true →
      ∀ c ∈ printJson v, c.toNat < 256) ∧
    (∀ es : List Json, elemsFuel es ≤ bound → jsonSafeList es = true →
      ∀ c ∈ printItems es, c.toNat < 256) ∧
    (∀ fs : List (List Char × Json), pairsFuel fs ≤ bound →
      jsonSafeFields fs = true → ∀ c ∈ printPairs fs, c.toNat < 256) := by
  intro bound
  induction bound using Nat.strong_induction_on with
  | _ bound ih =>
    refine ⟨?_, ?_, ?_⟩
    · intro v hbound hsafe c hc
      cases v with
      | null =>
        simp only [printJson, List.mem_cons, List.not_mem_nil, or_false] at hc
        rcases hc with rfl | rfl | rfl | rfl <;> decide
      | bool b =>
        cases b <;>
          simp only [printJson, List.mem_cons, List.not_mem_nil, or_false] at hc
        · rcases hc with rfl | rfl | rfl | rfl | rfl <;> decide
        · rcases hc with rfl | rfl | rfl | rfl <;> decide
      | num n =>
        simp only [printJson, intChars] at hc
        by_cases hneg : n < 0
        · rw [if_pos hneg] at hc
          rcases List.mem_cons.mp hc with rfl | htail
          · decide
          · exact natChars_toNat n.natAbs c htail
        · rw [if_neg hneg] at hc
          exact natChars_toNat n.natAbs c hc
      | str s =>
        have hsafe' : ∀ x ∈ s, safeChar x = true := by
          simp only [jsonSafe] at hsafe
          exact fun x hx => List.all_eq_true.mp hsafe x hx
        have hpr : printJson (Json.str s) = '"' :: (s ++ ['"']) := printStr_safe s hsafe'
        rw [hpr] at hc
        simp only [List.mem_cons, List.mem_append, List.not_mem_nil, or_false] at hc
        rcases hc with rfl | hin | rfl
        · decide
        · exact safeChar_toNat c (hsafe' c hin)
        · decide
      | arr es =>
        simp only [printJson, List.mem_cons, List.mem_append,
          List.not_mem_nil, or_false] at hc
        rcases hc with rfl | hin | rfl
        · decide
        · cases es with
          | nil => exact absurd hin (List.not_mem_nil c)
          | cons e es2 =>
            have hblt : bound - 1 < bound := by
              simp only [jfuel] at hbound
              omega
            have h1 : elemsFuel (e :: es2) ≤ bound - 1 := by
              simp only [jfuel] at hbound
              omega
            exact (ih (bound - 1) hblt).2.1 (e :: es2) h1
              (by simpa [jsonSafe] using hsafe) c hin
        · decide
      | obj fs =>
        simp only [printJson, List.mem_cons, List.mem_append,
          List.not_mem_nil, or_false] at hc
        rcases hc with rfl | hin | rfl
        · decide
        · cases fs with
          | nil => exact absurd hin (List.not_mem_nil c)
          | cons kv fs2 =>
            have hblt : bound - 1 < bound := by
              simp only [jfuel] at hbound
              omega
            have h1 : pairsFuel (kv :: fs2) ≤ bound - 1 := by
              simp only [jfuel] at hbound
              omega
            exact (ih (bound - 1) hblt).2.2 (kv :: fs2) h1
              (by simpa [jsonSafe] using hsafe) c hin
        · decide
    · intro es hbound hsafeL c hc
      cases es with
      | nil => exact absurd hc (List.not_mem_nil c)
      | cons e es2 =>
        have hblt : bound - 1 < bound := by
          simp only [elemsFuel] at hbound
          omega
        have hje : jfuel e ≤ bound - 1 := by
          simp only [elemsFuel] at hbound
          omega
        have hsafes : jsonSafe e = true ∧ jsonSafeList es2 = true := by
          simpa [jsonSafeList, Bool.and_eq_true] using hsafeL
        cases es2 with
        | nil =>
          exact (ih (bound - 1) hblt).1 e hje hsafes.1 c hc
        | cons x xs =>
          have hte : elemsFuel (x :: xs) ≤ bound - 1 := by
            simp only [elemsFuel] at hbound ⊢
            omega
          simp only [printItems, List.mem_append, List.mem_cons] at hc
          rcases hc with hin | rfl | hin
          · exact (ih (bound - 1) hblt).1 e hje hsafes.1 c hin
          · decide
          · exact (ih (bound - 1) hblt).2.1 (x :: xs) hte hsafes.2 c hin
    · intro fs hbound hsafeF c hc
      cases fs with
      | nil => exact absurd hc (List.not_mem_nil c)
      | cons kv fs2 =>
        have hblt : bound - 1 < bound := by
          simp only [pairsFuel] at hbound
          omega
        have hjv : jfuel kv.2 ≤ bound - 1 := by
          simp only [pairsFuel] at hbound
          omega
        have hsafes : kv.1.all safeChar = true ∧ jsonSafe kv.2 = true ∧
            jsonSafeFields fs2 = true := by
          simpa [jsonSafeFields, Bool.and_eq_true, and_assoc] using hsafeF
        have hkey : ∀ x ∈ kv.1, safeChar x = true :=
          fun x hx => List.all_eq_true.mp hsafes.1 x hx
        have hkv : ∀ x ∈ printStr kv.1 ++ ':' :: printJson kv.2, x.toNat < 256 := by
          intro x hx
          rw [printStr_safe kv.1 hkey] at hx
          simp only [List.mem_append, List.mem_cons, List.not_mem_nil, or_false] at hx
          rcases hx with (rfl | hin | rfl) | rfl | hin
          · decide
          · exact safeChar_toNat x (hkey x hin)
          · decide
          · decide
          · exact (ih (bound - 1) hblt).1 kv.2 hjv hsafes.2.1 x hin
        cases fs2 with
        | nil => exact hkv c hc
        | cons x xs =>
          have htp : pairsFuel (x :: xs) ≤ bound - 1 := by
            simp only [pairsFuel] at hbound ⊢
            omega
          simp only [printPairs, List.mem_append, List.mem_cons] at hc
          rcases hc with hin | rfl | hin
          · exact hkv c (by simpa [printPairs] using hin)
          · decide
          · exact (ih (bound - 1) hblt).2.2 (x :: xs) htp hsafes.2.2 c hin

/-- `JSON.parse` inverts `JSON.stringify` on safe payloads. -/
theorem jsonParse_printJson (v : Json) (h : jsonSafe v = true) :
    jsonParse (printJson v) = some v := by
  have hlen := (jfuel_le_print (jfuel v)).1 v le_rfl
  have hfuel : jfuel v ≤ 2 * (printJson v).length + 2 := by omega
  have hp := (parsePrint_aux (jfuel v)).1 v [] (2 * (printJson v).length + 2)
    le_rfl h hfuel rfl
  rw [List.append_nil] at hp
  simp [jsonParse, hp, skipJsonWs]

/-- What `verifyToken` makes of a token minted by `signToken`: signature
check and decoding always succeed, leaving exactly the expiry test. -/
theorem verify_sign_eq (hmac : List Char → List Char) (nowMs : Int)
    (payload : Json) (hsafe : jsonSafe payload = true)
    (hdot : ∀ c ∈ hmac (b64urlEncode (charsToBytes (printJson payload))), c ≠ '.') :
    verifyToken hmac nowMs (signToken hmac payload) =
      match jsonGet payload expKey with
      | some (Json.num e) =>
        if e ≠ 0 ∧ nowMs > 1000 * e then none else some payload
      | _ => some payload := by
  have hbytes : ∀ b ∈ charsToBytes (printJson payload), b < 256 := by
    intro b hb
    simp only [charsToBytes, List.mem_map] at hb
    obtain ⟨c, hc, rfl⟩ := hb
    exact (printJson_ascii (jfuel payload)).1 payload le_rfl hsafe c hc
  have hdata : ∀ c ∈ b64urlEncode (charsToBytes (printJson payload)), c ≠ '.' :=
    b64urlEncode_ne_dot _ hbytes
  have htok : signToken hmac payload ≠ [] := by
    simp only [signToken]
    intro hcontr
    exact absurd (List.append_eq_nil.mp hcontr).2 (by simp)
  have hsplit : takeToDot (signToken hmac payload) =
      (b64urlEncode (charsToBytes (printJson payload)),
        some (hmac (b64urlEncode (charsToBytes (printJson payload))))) :=
    takeToDot_append _ hdata _
  have hsig : takeToDot (hmac (b64urlEncode (charsToBytes (printJson payload)))) =
      (hmac (b64urlEncode (charsToBytes (printJson payload))), none) :=
    takeToDot_of_ne _ hdot
  rw [verifyToken, if_neg htok, hsplit]
  simp only [hsig, if_pos rfl, b64url_roundtrip _ hbytes,
    bytesToChars_charsToBytes, jsonParse_printJson payload hsafe, if_true]

/-- C10: the entitlement-token pair of part_000 (lines 130-132) is a
sign/verify round trip, in the corrected form: a signed payload whose
numeric `exp` is not yet past verifies back to the payload; one whose
`exp` is past verifies to `null` only when `exp` is nonzero (JavaScript's
`payload.exp &&` guard skips the expiry test for the falsy value `0`);
and a token carrying any signature other than the HMAC of its data part
verifies to `null`. -/
theorem token_sign_verify (hmac : List Char → List Char) (nowMs : Int)
    (payload : Json) (e : Int) (hsafe : jsonSafe payload = true)
    (hdot : ∀ c ∈ hmac (b64urlEncode (charsToBytes (printJson payload))), c ≠ '.')
    (hexp : jsonGet payload expKey = some (Json.num e)) :
    (nowMs ≤ 1000 * e →
      verifyToken hmac nowMs (signToken hmac payload) = some payload) ∧
    (e ≠ 0 → nowMs > 1000 * e →
      verifyToken hmac nowMs (signToken hmac payload) = none) ∧
    (∀ sig : List Char,
      sig ≠ hmac (b64urlEncode (charsToBytes (printJson payload))) →
      (∀ c ∈ sig, c ≠ '.') →
      verifyToken hmac nowMs
        (b64urlEncode (charsToBytes (printJson payload)) ++ '.' :: sig) = none) := by
  refine ⟨?_, ?_, ?_⟩
  · intro hlt
    rw [verify_sign_eq hmac nowMs payload hsafe hdot, hexp]
    exact if_neg (show ¬(e ≠ 0 ∧ nowMs > 1000 * e) from by omega)
  · intro hne hgt
    rw [verify_sign_eq hmac nowMs payload hsafe hdot, hexp]
    exact if_pos ⟨hne, hgt⟩
  · intro sig hne hsigdot
    have hbytes : ∀ b ∈ charsToBytes (printJson payload), b < 256 := by
      intro b hb
      simp only [charsToBytes, List.mem_map] at hb
      obtain ⟨c, hc, rfl⟩ := hb
      exact (printJson_ascii (jfuel payload)).1 payload le_rfl hsafe c hc
    have hdata : ∀ c ∈ b64urlEncode (charsToBytes (printJson payload)), c ≠ '.' :=
      b64urlEncode_ne_dot _ hbytes
    have htok : b64urlEncode (charsToBytes (printJson payload)) ++ '.' :: sig ≠ [] := by
      intro hcontr
      exact absurd (List.append_eq_nil.mp hcontr).2 (by simp)
    rw [verifyToken, if_neg htok, takeToDot_append _ hdata sig]
    simp [takeToDot_of_ne sig hsigdot, hne]

/-- C10 counterexample to the claim as stated: the payload with `exp = 0`
lies in the past at `nowMs = 1000`, yet verifying its signed token returns
the payload rather than `null`, because `payload.exp &&` is falsy at `0`
and the expiry test is skipped. -/
theorem token_claim_counterexample :
    (1000 : Int) > 1000 * 0 ∧
    verifyToken hmacStub 1000 (signToken hmacStub (Json.obj [(expKey, Json.num 0)])) =
      some (Json.obj [(expKey, Json.num 0)]) :=
  ⟨by decide, rfl⟩

theorem token_sign_verify_witness :
    jsonSafe (Json.obj [(expKey, Json.num 2)]) = true ∧
    (1500 : Int) ≤ 1000 * 2 ∧
    verifyToken hmacStub 1500 (signToken hmacStub (Json.obj [(expKey, Json.num 2)])) =
      some (Json.obj [(expKey, Json.num 2)]) :=
  ⟨rfl, by decide,
    (token_sign_verify hmacStub 1500 (Json.obj [(expKey, Json.num 2)]) 2 rfl
      (fun c hc => by
        have hc2 : c ∈ ['S', 'I', 'G'] := hc
        rcases List.mem_cons.mp hc2 with rfl | hc3
        · decide
        rcases List.mem_cons.mp hc3 with rfl | hc4
        · decide
        rcases List.mem_cons.mp hc4 with rfl | hc5
        · decide
        · exact absurd hc5 (List.not_mem_nil c))
      rfl).1 (by decide)⟩
